import Mathlib

/-!
# A verification development for the sphere ray tracer

Shallow embedding of `sphere.h`, `hittable.h` and `main.cpp`.

Conventions of the embedding

* `double` is idealised as an arbitrary linearly ordered field `K` (the theorems are
  instantiated at `ℝ`); rounding, NaN and signed zeros are outside the model.  Division
  is the division of the field, so a statement describes the C++ code on the inputs on
  which the code divides by no zero and takes no square root of a negative number; the
  variants `sphere.hit_checked` and `ray_color_checked` record the divisions by zero.
  What depends on the rounding of `double` operations (the exact integers printed by
  `write_color`) is not part of the embedding.
* The C library function `sqrt` is a parameter `sqrt : K → K`; theorems that depend on
  its value assume `SqrtSpec sqrt`, the usual contract on the non-negative numbers.
* The constant `infinity` passed as `t_max` is `⊤ : WithTop K`.
* A `bool` function with an out-parameter returns an `Option`: `none` is `false` (the
  out-parameter untouched), `some rec` is `true` with the out-parameter left as `rec`.
* `int` is `Int`; signed overflow (undefined behaviour in C++) is outside the model.
* Calls through `hittable` and `material` pointers may touch global state (the random
  number generator); they are modelled by explicit state passing over a state type `σ`.
-/

namespace Raytracer

/-! ## Vector algebra (`vec3.h`, `ray.h`) -/

/-- Modelled from the spec: `vec3.h` is not among the sources.  A vector, point or colour
is three `double` components with the accessors `x()`, `y()`, `z()`. -/
structure vec3 (K : Type) where
  x : K
  y : K
  z : K
deriving DecidableEq

namespace vec3

variable {K : Type} [LinearOrderedField K]

instance : Zero (vec3 K) := ⟨⟨0, 0, 0⟩⟩
instance : Add (vec3 K) := ⟨fun u v => ⟨u.x + v.x, u.y + v.y, u.z + v.z⟩⟩
instance : Sub (vec3 K) := ⟨fun u v => ⟨u.x - v.x, u.y - v.y, u.z - v.z⟩⟩
instance : Neg (vec3 K) := ⟨fun v => ⟨-v.x, -v.y, -v.z⟩⟩
/-- Component-wise product `u * v` of two colours. -/
instance : Mul (vec3 K) := ⟨fun u v => ⟨u.x * v.x, u.y * v.y, u.z * v.z⟩⟩
/-- Scalar multiple `t * v`. -/
instance : SMul K (vec3 K) := ⟨fun t v => ⟨t * v.x, t * v.y, t * v.z⟩⟩
/-- Division by a scalar `v / t`. -/
instance : HDiv (vec3 K) K (vec3 K) := ⟨fun v t => ⟨v.x / t, v.y / t, v.z / t⟩⟩

/-- Modelled from the spec: the dot product of `vec3.h`. -/
def dot (u v : vec3 K) : K := u.x * v.x + u.y * v.y + u.z * v.z

/-- Modelled from the spec: `vec3::length_squared`. -/
def length_squared (v : vec3 K) : K := v.x * v.x + v.y * v.y + v.z * v.z

/-- Modelled from the spec: `vec3::length`, the square root of `length_squared`. -/
def length (sqrt : K → K) (v : vec3 K) : K := sqrt v.length_squared

/-- Modelled from the spec: `unit_vector`, the vector divided by its length. -/
def unit_vector (sqrt : K → K) (v : vec3 K) : vec3 K := v / v.length sqrt

end vec3

/-- Modelled from the spec: `ray.h` is not among the sources.  A ray is an origin and a
direction. -/
structure ray (K : Type) where
  orig : vec3 K
  dir : vec3 K
deriving DecidableEq

namespace ray

variable {K : Type} [LinearOrderedField K]

/-- Modelled from the spec: `ray::origin`. -/
def origin (r : ray K) : vec3 K := r.orig

/-- Modelled from the spec: `ray::direction`. -/
def direction (r : ray K) : vec3 K := r.dir

/-- Modelled from the spec: `ray::at`, the position `origin + t*direction`. -/
def «at» (r : ray K) (t : K) : vec3 K := r.orig + t • r.dir

end ray

/-- The contract of the C library's `sqrt` on the non-negative numbers: the result is the
non-negative number whose square is the argument. -/
def SqrtSpec {K : Type} [LinearOrderedField K] (sqrt : K → K) : Prop :=
  ∀ x : K, 0 ≤ x → 0 ≤ sqrt x ∧ sqrt x * sqrt x = x

/-! ## `hittable.h` -/

/-- The struct `hit_record`; `M` is the type of material handles (`shared_ptr<material>`). -/
structure hit_record (K M : Type) where
  p : vec3 K
  normal : vec3 K
  mat_ptr : M
  t : K
  front_face : Bool
deriving DecidableEq

namespace hit_record

variable {K M : Type} [LinearOrderedField K]

/-- The method `hit_record::set_face_normal`. -/
def set_face_normal (rec : hit_record K M) (r : ray K) (outward_normal : vec3 K) :
    hit_record K M :=
  let front_face : Bool := decide (vec3.dot r.direction outward_normal < 0)
  { rec with
    front_face := front_face
    normal := if front_face then outward_normal else -outward_normal }

end hit_record

/-! ## `sphere.h` -/

/-- The class `sphere`. -/
structure sphere (K M : Type) where
  center : vec3 K
  radius : K
  mat_ptr : M
deriving DecidableEq

namespace sphere

variable {K M : Type} [LinearOrderedField K]

/-- The method `sphere::hit`.  `rec` is the content of the out-parameter on entry. -/
def hit (s : sphere K M) (sqrt : K → K) (r : ray K) (t_min : K) (t_max : WithTop K)
    (rec : hit_record K M) : Option (hit_record K M) :=
  let oc := r.origin - s.center
  let a := r.direction.length_squared
  let half_b := vec3.dot oc r.direction
  let c := oc.length_squared - s.radius * s.radius
  let discriminant := half_b * half_b - a * c
  if discriminant < 0 then none
  else
    let sqrtd := sqrt discriminant
    let root := (-half_b - sqrtd) / a
    let root :=
      if root < t_min ∨ t_max < (root : WithTop K) then (-half_b + sqrtd) / a else root
    if root < t_min ∨ t_max < (root : WithTop K) then none
    else
      let rec1 := { rec with t := root }
      let rec2 := { rec1 with p := r.at root }
      let outward_normal := (rec2.p - s.center) / s.radius
      let rec3 := rec2.set_face_normal r outward_normal
      let rec4 := { rec3 with mat_ptr := s.mat_ptr }
      some rec4

end sphere

/-! ## Conversions -/

/-- The conversion `static_cast<int>` of a `double`: truncation towards zero. -/
def static_cast_int {K : Type} [LinearOrderedField K] [FloorRing K] (x : K) : Int :=
  if 0 ≤ x then ⌊x⌋ else ⌈x⌉

/-! ## `main.cpp` -/

/-- The abstract class `hittable`: its one virtual method `hit`, which may read and change
the global state `σ`. -/
structure hittable (σ K M : Type) where
  hit : ray K → K → WithTop K → hit_record K M → σ → Option (hit_record K M) × σ

/-- Modelled from the spec: `material.h` is not among the sources.  The virtual method
`scatter` of the material behind a handle either declines or gives an attenuation and a
scattered ray; it draws from the global random number generator, part of the state `σ`. -/
structure materials (σ K M : Type) where
  scatter : M → ray K → hit_record K M → σ → Option (vec3 K × ray K) × σ

/-- The function `ray_color`.  `rec` is the content of the uninitialised local `rec`. -/
def ray_color {σ K M : Type} [LinearOrderedField K] (sqrt : K → K) (mats : materials σ K M)
    (rec : hit_record K M) (world : hittable σ K M) (r : ray K) (depth : Int) (st : σ) :
    vec3 K × σ :=
  if _h : depth ≤ 0 then (⟨0, 0, 0⟩, st)
  else
    match world.hit r (1 / 1000) ⊤ rec st with
    | (some rec1, st1) =>
      match mats.scatter rec1.mat_ptr r rec1 st1 with
      | (some (attenuation, scattered), st2) =>
        let res := ray_color sqrt mats rec world scattered (depth - 1) st2
        (attenuation * res.1, res.2)
      | (none, st2) => (⟨0, 0, 0⟩, st2)
    | (none, st1) =>
      let unit_direction := vec3.unit_vector sqrt r.direction
      let t := 1 / 2 * (unit_direction.y + 1)
      ((1 - t) • (⟨1, 1, 1⟩ : vec3 K) + t • (⟨1 / 2, 7 / 10, 1⟩ : vec3 K), st1)
termination_by depth.toNat
decreasing_by omega

/-- The struct `render_data`, without the camera, the world and the sample count, which
only the body of the pixel loop uses. -/
structure render_data where
  idx : Int
  num : Int
  image_width : Int
  image_height : Int
deriving DecidableEq

/-- The sample loop of `render_scanline` for the pixel `(i, j)`: the sum of
`samples_per_pixel` samples; `sample i j s` stands for the colour that `ray_color` gives
for the `s`-th jittered camera ray of the pixel. -/
def render_scanline.samples {K : Type} [LinearOrderedField K]
    (sample : Int → Int → Int → vec3 K) (samples_per_pixel i j s : Int)
    (pixel_color : vec3 K) : vec3 K :=
  if s < samples_per_pixel then
    render_scanline.samples sample samples_per_pixel i j (s + 1) (pixel_color + sample i j s)
  else pixel_color
termination_by (samples_per_pixel - s).toNat
decreasing_by omega

/-- The loop over the columns `i` of scanline `j` in `render_scanline`; `pixel i j` is the
value pushed for the pixel. -/
def render_scanline.columns {C : Type} (pixel : Int → Int → C) (image_width j i : Int)
    (buf : List C) : List C :=
  if i < image_width then
    render_scanline.columns pixel image_width j (i + 1) (buf ++ [pixel i j])
  else buf
termination_by (image_width - i).toNat
decreasing_by omega

/-- The loop over the scanlines `j`, from the current one down to `stop`, in
`render_scanline`. -/
def render_scanline.lines {C : Type} (pixel : Int → Int → C) (image_width stop j : Int)
    (buf : List C) : List C :=
  if j ≥ stop then
    render_scanline.lines pixel image_width stop (j - 1)
      (render_scanline.columns pixel image_width j 0 buf)
  else buf
termination_by (j + 1 - stop).toNat
decreasing_by omega

/-- The function `render_scanline`: the buffer `buf` after the call. -/
def render_scanline {C : Type} (data : render_data) (pixel : Int → Int → C)
    (buf : List C) : List C :=
  let idx := data.image_height - 1 - data.idx
  let stop := max (idx + 1 - data.num) 0
  render_scanline.lines pixel data.image_width stop idx buf

/-- The band size of `main`: `ceil(float(image_height) / float(num_threads))`, the
quotient of the two `float`s idealised as the exact quotient. -/
def scanlinesPerThread (image_height num_threads : Int) : Int :=
  ⌈(image_height : ℚ) / (num_threads : ℚ)⌉

/-- The loop of `main` that starts one worker per band and collects the buffers. -/
def main.spawn {C : Type} (pixel : Int → Int → C)
    (image_width image_height num_threads scanlines : Int) (p : Int)
    (buffer : List (List C)) : List (List C) :=
  if p < num_threads then
    main.spawn pixel image_width image_height num_threads scanlines (p + 1)
      (buffer ++ [render_scanline
        { idx := p * scanlines, num := scanlines, image_width := image_width,
          image_height := image_height } pixel []])
  else buffer
termination_by (num_threads - p).toNat
decreasing_by omega

/-- The band buffers of `main`, in band order. -/
def main.buffers {C : Type} (pixel : Int → Int → C)
    (image_width image_height num_threads : Int) : List (List C) :=
  main.spawn pixel image_width image_height num_threads
    (scanlinesPerThread image_height num_threads) 0 []

/-- The pixels in the order in which the last loop of `main` writes them: buffer after
buffer. -/
def main.pixels {C : Type} (pixel : Int → Int → C)
    (image_width image_height num_threads : Int) : List C :=
  (main.buffers pixel image_width image_height num_threads).flatten

/-- The order of a single sequential rendering, in the words of the specification:
scanline `j` from `H - 1` down to `0`, and in each scanline column `i` from `0` to
`W - 1`. -/
def sequential_order {C : Type} (pixel : Int → Int → C) (W H : Int) : List C :=
  ((List.range H.toNat).reverse).flatMap fun (j : Nat) =>
    (List.range W.toNat).map fun (i : Nat) => pixel (i : Int) (j : Int)

/-! ## Auxiliary definitions for the statements -/

section Auxiliary

variable {K M : Type} [LinearOrderedField K]

/-- The record that `sphere::hit` leaves in its out-parameter when it accepts `root`. -/
def sphere.record (s : sphere K M) (r : ray K) (rec : hit_record K M) (root : K) :
    hit_record K M :=
  { (({ rec with t := root, p := r.at root } : hit_record K M).set_face_normal r
      ((r.at root - s.center) / s.radius)) with mat_ptr := s.mat_ptr }

/-- The discriminant computed by `sphere::hit`. -/
def sphere.discriminant (s : sphere K M) (r : ray K) : K :=
  vec3.dot (r.origin - s.center) r.direction * vec3.dot (r.origin - s.center) r.direction
    - r.direction.length_squared
      * ((r.origin - s.center).length_squared - s.radius * s.radius)

/-- The smaller root tested by `sphere::hit`. -/
def sphere.root1 (s : sphere K M) (sqrt : K → K) (r : ray K) : K :=
  (-vec3.dot (r.origin - s.center) r.direction - sqrt (s.discriminant r))
    / r.direction.length_squared

/-- The larger root tested by `sphere::hit`. -/
def sphere.root2 (s : sphere K M) (sqrt : K → K) (r : ray K) : K :=
  (-vec3.dot (r.origin - s.center) r.direction + sqrt (s.discriminant r))
    / r.direction.length_squared

/-- A point of the ray lies on the sphere. -/
def sphere.on_surface (s : sphere K M) (r : ray K) (t : K) : Prop :=
  (r.at t - s.center).length_squared = s.radius * s.radius

/-- The pixels of scanline `j`, columns `0` to `image_width - 1`. -/
def scanline_row {C : Type} (pixel : Int → Int → C) (image_width j : Int) : List C :=
  (List.range image_width.toNat).map fun (i : Nat) => pixel (i : Int) j

/-- The pixels of the `n` scanlines from `top` downwards. -/
def scanline_block {C : Type} (pixel : Int → Int → C) (image_width top : Int) (n : Nat) :
    List C :=
  (List.range n).flatMap fun (k : Nat) => scanline_row pixel image_width (top - (k : Int))

/-- The number of scanlines of the band that starts at scanline index `idx`. -/
def band_lines (image_height idx num : Int) : Nat :=
  (min num (max (image_height - idx) 0)).toNat

end Auxiliary

/-! ## Concrete inputs -/

/-- The material handles created in `main`. -/
inductive material_handle where
  | material_ground
  | material_center
  | material_left
  | material_right
deriving DecidableEq

/-- The first sphere added to the world in `main`. -/
def main.sphere_ground (K : Type) [LinearOrderedField K] : sphere K material_handle :=
  ⟨⟨0, -(201 / 2), -1⟩, 100, .material_ground⟩

/-- The second sphere added to the world in `main`. -/
def main.sphere_center (K : Type) [LinearOrderedField K] : sphere K material_handle :=
  ⟨⟨0, 0, -1⟩, 1 / 2, .material_center⟩

/-- The ray from the origin down the negative `z` axis. -/
def axis_ray (K : Type) [LinearOrderedField K] : ray K := ⟨⟨0, 0, 0⟩, ⟨0, 0, -1⟩⟩

/-- A hit record with every field zero, standing for the out-parameter on entry. -/
def blank_record (K : Type) [LinearOrderedField K] (M : Type) (m : M) : hit_record K M :=
  ⟨⟨0, 0, 0⟩, ⟨0, 0, 0⟩, m, 0, false⟩

/-- A world that reports a hit for every query and counts the queries in the state. -/
def counting_world (K : Type) [LinearOrderedField K] (M : Type) : hittable Nat K M :=
  ⟨fun _ _ _ rec n => (some rec, n + 1)⟩

/-- Materials that always scatter the incoming ray and count the calls in the state. -/
def counting_materials (K : Type) [LinearOrderedField K] (M : Type) : materials Nat K M :=
  ⟨fun _ r _ n => (some (⟨1, 1, 1⟩, r), n + 1)⟩

/-- A world without primitives: no query reports a hit. -/
def empty_world (σ K M : Type) : hittable σ K M :=
  ⟨fun _ _ _ _ st => (none, st)⟩

/-- A sphere of radius `0.5` two units down the negative `z` axis. -/
def far_sphere (K : Type) [LinearOrderedField K] : sphere K material_handle :=
  ⟨⟨0, 0, -2⟩, 1 / 2, .material_center⟩

/-- The ray from the origin down the negative `z` axis with a direction of length two. -/
def long_axis_ray (K : Type) [LinearOrderedField K] : ray K := ⟨⟨0, 0, 0⟩, ⟨0, 0, -2⟩⟩

/-! ## The image of `main` -/

/-- The constant `aspect_ratio` of `main`. -/
def main.aspect_ratio (K : Type) [LinearOrderedField K] : K := 16 / 9

/-- The constant `image_width` of `main`. -/
def main.image_width : Int := 400

/-- The constant `image_height` of `main`. -/
def main.image_height (K : Type) [LinearOrderedField K] [FloorRing K] : Int :=
  static_cast_int ((main.image_width : K) / main.aspect_ratio K)

/-- The header that `main` writes to the output before it renders. -/
def main.header (image_width image_height : Int) : String :=
  "P3\n" ++ toString image_width ++ " " ++ toString image_height ++ "\n255\n"

/-- The text made of the given lines, each ended by a newline. -/
def text_of_lines (lines : List String) : String :=
  String.join (lines.map fun (l : String) => l ++ "\n")

/-! ## Ghost counters for `ray_color` -/

/-- The world `world` with a ghost counter of the calls of `hit` added to the state. -/
def hittable.counted {σ K M : Type} (world : hittable σ K M) :
    hittable (σ × Nat × Nat) K M :=
  ⟨fun r t_min t_max rec st =>
    ((world.hit r t_min t_max rec st.1).1,
      ((world.hit r t_min t_max rec st.1).2, st.2.1 + 1, st.2.2))⟩

/-- The materials `mats` with a ghost counter of the calls of `scatter` added to the
state. -/
def materials.counted {σ K M : Type} (mats : materials σ K M) :
    materials (σ × Nat × Nat) K M :=
  ⟨fun m r rec st =>
    ((mats.scatter m r rec st.1).1, ((mats.scatter m r rec st.1).2, st.2.1, st.2.2 + 1))⟩

/-! ## The constructor of `sphere` -/

set_option linter.dupNamespace false in
/-- The constructor `sphere::sphere(cen, r, m)`: it stores its three arguments. -/
def sphere.sphere {K M : Type} (cen : vec3 K) (r : K) (m : M) : sphere K M :=
  { center := cen, radius := r, mat_ptr := m }

/-! ## Divisions with the divisor recorded -/

/-- Division of two `double`s that records a zero divisor: `none` stands for a quotient
that is no number of the model (the C++ division then yields an infinity or a NaN). -/
def checked_div {K : Type} [LinearOrderedField K] (x y : K) : Option K :=
  if y = 0 then none else some (x / y)

/-- Division of a vector by a scalar that records a zero divisor. -/
def vec3.checked_div {K : Type} [LinearOrderedField K] (v : vec3 K) (t : K) :
    Option (vec3 K) :=
  if t = 0 then none else some (v / t)

/-- The function `unit_vector` with its division recorded. -/
def vec3.unit_vector_checked {K : Type} [LinearOrderedField K] (sqrt : K → K) (v : vec3 K) :
    Option (vec3 K) :=
  v.checked_div (v.length sqrt)

/-- The method `sphere::hit` with every division recorded: the outer `none` says that some
division had a zero divisor, `some res` that none had and `res` is the result of `hit`. -/
def sphere.hit_checked {K M : Type} [LinearOrderedField K] (s : Raytracer.sphere K M)
    (sqrt : K → K)
    (r : ray K) (t_min : K) (t_max : WithTop K) (rec : hit_record K M) :
    Option (Option (hit_record K M)) :=
  let oc := r.origin - s.center
  let a := r.direction.length_squared
  let half_b := vec3.dot oc r.direction
  let c := oc.length_squared - s.radius * s.radius
  let discriminant := half_b * half_b - a * c
  if discriminant < 0 then some none
  else
    let sqrtd := sqrt discriminant
    (checked_div (-half_b - sqrtd) a).bind fun root1 =>
    (if root1 < t_min ∨ t_max < (root1 : WithTop K) then checked_div (-half_b + sqrtd) a
      else some root1).bind fun root =>
    if root < t_min ∨ t_max < (root : WithTop K) then some none
    else
      let rec1 := { rec with t := root }
      let rec2 := { rec1 with p := r.at root }
      ((rec2.p - s.center).checked_div s.radius).bind fun outward_normal =>
      let rec3 := rec2.set_face_normal r outward_normal
      let rec4 := { rec3 with mat_ptr := s.mat_ptr }
      some (some rec4)

/-- The function `ray_color` with the division of `unit_vector` recorded: `none` says that
the zero vector was normalised somewhere along the evaluation. -/
def ray_color_checked {σ K M : Type} [LinearOrderedField K] (sqrt : K → K)
    (mats : materials σ K M) (rec : hit_record K M) (world : hittable σ K M) (r : ray K)
    (depth : Int) (st : σ) : Option (vec3 K × σ) :=
  if _h : depth ≤ 0 then some (⟨0, 0, 0⟩, st)
  else
    match world.hit r (1 / 1000) ⊤ rec st with
    | (some rec1, st1) =>
      match mats.scatter rec1.mat_ptr r rec1 st1 with
      | (some (attenuation, scattered), st2) =>
        (ray_color_checked sqrt mats rec world scattered (depth - 1) st2).map fun res =>
          (attenuation * res.1, res.2)
      | (none, st2) => some (⟨0, 0, 0⟩, st2)
    | (none, st1) =>
      (vec3.unit_vector_checked sqrt r.direction).map fun unit_direction =>
        let t := 1 / 2 * (unit_direction.y + 1)
        ((1 - t) • (⟨1, 1, 1⟩ : vec3 K) + t • (⟨1 / 2, 7 / 10, 1⟩ : vec3 K), st1)
termination_by depth.toNat
decreasing_by omega

/-- The ray from the origin with the zero vector as direction. -/
def zero_ray (K : Type) [LinearOrderedField K] : ray K := ⟨⟨0, 0, 0⟩, ⟨0, 0, 0⟩⟩

/-! ## Further auxiliary definitions and inputs -/

/-- The ray `r` with its direction multiplied by `k`. -/
def ray.scale {K : Type} [LinearOrderedField K] (r : ray K) (k : K) : ray K :=
  ⟨r.orig, k • r.dir⟩

/-- Every component of the vector lies in `[lo, hi]`. -/
def vec3.within {K : Type} [LinearOrderedField K] (lo hi : K) (v : vec3 K) : Prop :=
  (lo ≤ v.x ∧ v.x ≤ hi) ∧ (lo ≤ v.y ∧ v.y ≤ hi) ∧ (lo ≤ v.z ∧ v.z ≤ hi)

/-- A ray that starts at the centre of the small sphere of `main` and runs along the `z`
axis. -/
def inside_ray (K : Type) [LinearOrderedField K] : ray K := ⟨⟨0, 0, -1⟩, ⟨0, 0, 1⟩⟩

/-- A sphere of radius `0` at `(0,0,-1)`, as the constructor builds it. -/
def zero_radius_sphere (K : Type) [LinearOrderedField K] : sphere K material_handle :=
  sphere.sphere ⟨0, 0, -1⟩ 0 .material_center

/-! ## Vector algebra lemmas -/

section VectorLemmas

variable {K : Type} [LinearOrderedField K]

@[simp] theorem vec3_zero_x : (0 : vec3 K).x = 0 := rfl
@[simp] theorem vec3_zero_y : (0 : vec3 K).y = 0 := rfl
@[simp] theorem vec3_zero_z : (0 : vec3 K).z = 0 := rfl
@[simp] theorem vec3_add_x (u v : vec3 K) : (u + v).x = u.x + v.x := rfl
@[simp] theorem vec3_add_y (u v : vec3 K) : (u + v).y = u.y + v.y := rfl
@[simp] theorem vec3_add_z (u v : vec3 K) : (u + v).z = u.z + v.z := rfl
@[simp] theorem vec3_sub_x (u v : vec3 K) : (u - v).x = u.x - v.x := rfl
@[simp] theorem vec3_sub_y (u v : vec3 K) : (u - v).y = u.y - v.y := rfl
@[simp] theorem vec3_sub_z (u v : vec3 K) : (u - v).z = u.z - v.z := rfl
@[simp] theorem vec3_neg_x (v : vec3 K) : (-v).x = -v.x := rfl
@[simp] theorem vec3_neg_y (v : vec3 K) : (-v).y = -v.y := rfl
@[simp] theorem vec3_neg_z (v : vec3 K) : (-v).z = -v.z := rfl
@[simp] theorem vec3_mul_x (u v : vec3 K) : (u * v).x = u.x * v.x := rfl
@[simp] theorem vec3_mul_y (u v : vec3 K) : (u * v).y = u.y * v.y := rfl
@[simp] theorem vec3_mul_z (u v : vec3 K) : (u * v).z = u.z * v.z := rfl
@[simp] theorem vec3_smul_x (t : K) (v : vec3 K) : (t • v).x = t * v.x := rfl
@[simp] theorem vec3_smul_y (t : K) (v : vec3 K) : (t • v).y = t * v.y := rfl
@[simp] theorem vec3_smul_z (t : K) (v : vec3 K) : (t • v).z = t * v.z := rfl
@[simp] theorem vec3_div_x (v : vec3 K) (t : K) : (v / t).x = v.x / t := rfl
@[simp] theorem vec3_div_y (v : vec3 K) (t : K) : (v / t).y = v.y / t := rfl
@[simp] theorem vec3_div_z (v : vec3 K) (t : K) : (v / t).z = v.z / t := rfl

omit [LinearOrderedField K] in
theorem vec3_ext {u v : vec3 K} (hx : u.x = v.x) (hy : u.y = v.y) (hz : u.z = v.z) :
    u = v := by
  cases u; cases v; simp_all

/-- A vector other than the zero vector has a positive squared length. -/
theorem length_squared_pos {v : vec3 K} (hv : v ≠ 0) : 0 < v.length_squared := by
  unfold vec3.length_squared
  by_contra hneg
  apply hv
  have hx := mul_self_nonneg v.x
  have hy := mul_self_nonneg v.y
  have hz := mul_self_nonneg v.z
  have hx0 : v.x * v.x = 0 := by linarith
  have hy0 : v.y * v.y = 0 := by linarith
  have hz0 : v.z * v.z = 0 := by linarith
  exact vec3_ext (by simpa using hx0) (by simpa using hy0) (by simpa using hz0)

theorem length_squared_nonneg (v : vec3 K) : 0 ≤ v.length_squared := by
  unfold vec3.length_squared
  have hx := mul_self_nonneg v.x
  have hy := mul_self_nonneg v.y
  have hz := mul_self_nonneg v.z
  linarith

/-- Two non-negative numbers with the same square are equal. -/
theorem eq_of_mul_self_eq_of_nonneg {x y : K} (hx : 0 ≤ x) (hy : 0 ≤ y)
    (h : x * x = y * y) : x = y := by
  rcases (mul_self_eq_mul_self_iff.mp h) with h1 | h1
  · exact h1
  · have : y = 0 := by linarith
    rw [h1, this]; simp

/-- The square root of a square with a non-negative base is the base. -/
theorem SqrtSpec.sqrt_mul_self {sqrt : K → K} (hsqrt : SqrtSpec sqrt) {x : K} (hx : 0 ≤ x) :
    sqrt (x * x) = x :=
  eq_of_mul_self_eq_of_nonneg (hsqrt _ (mul_self_nonneg x)).1 hx
    (hsqrt _ (mul_self_nonneg x)).2

/-- The real square root satisfies the contract. -/
theorem real_sqrt_spec : SqrtSpec Real.sqrt :=
  fun x hx => ⟨Real.sqrt_nonneg x, Real.mul_self_sqrt hx⟩

end VectorLemmas

/-! ## `sphere::hit` -/

section SphereHit

variable {K M : Type} [LinearOrderedField K]

theorem sphere_hit_eq (s : sphere K M) (sqrt : K → K) (r : ray K) (t_min : K)
    (t_max : WithTop K) (rec : hit_record K M) :
    s.hit sqrt r t_min t_max rec =
      if s.discriminant r < 0 then none
      else if t_min ≤ s.root1 sqrt r ∧ (s.root1 sqrt r : WithTop K) ≤ t_max then
        some (s.record r rec (s.root1 sqrt r))
      else if t_min ≤ s.root2 sqrt r ∧ (s.root2 sqrt r : WithTop K) ≤ t_max then
        some (s.record r rec (s.root2 sqrt r))
      else none := by
  unfold sphere.hit
  simp only [← sphere.discriminant.eq_1, ← sphere.root1.eq_1, ← sphere.root2.eq_1]
  by_cases hd : s.discriminant r < 0
  · simp [hd]
  · simp only [hd, if_false]
    by_cases h1 : t_min ≤ s.root1 sqrt r ∧ (s.root1 sqrt r : WithTop K) ≤ t_max
    · have h1' : ¬ (s.root1 sqrt r < t_min ∨ t_max < (s.root1 sqrt r : WithTop K)) := by
        rw [not_or, not_lt, not_lt]; exact h1
      simp only [h1', h1, if_false, if_true, and_self]
      rfl
    · have h1' : (s.root1 sqrt r < t_min ∨ t_max < (s.root1 sqrt r : WithTop K)) := by
        rw [not_and_or, not_le, not_le] at h1; exact h1
      simp only [h1', h1, if_false, if_true]
      by_cases h2 : t_min ≤ s.root2 sqrt r ∧ (s.root2 sqrt r : WithTop K) ≤ t_max
      · have h2' : ¬ (s.root2 sqrt r < t_min ∨ t_max < (s.root2 sqrt r : WithTop K)) := by
          rw [not_or, not_lt, not_lt]; exact h2
        simp only [h2', h2, if_false, if_true, and_self]
        rfl
      · have h2' : (s.root2 sqrt r < t_min ∨ t_max < (s.root2 sqrt r : WithTop K)) := by
          rw [not_and_or, not_le, not_le] at h2; exact h2
        simp only [h2', h2, if_false, if_true]

theorem sphere_quadratic (s : sphere K M) (r : ray K) (t : K) :
    r.direction.length_squared
        * ((r.at t - s.center).length_squared - s.radius * s.radius)
      = (r.direction.length_squared * t + vec3.dot (r.origin - s.center) r.direction)
          * (r.direction.length_squared * t + vec3.dot (r.origin - s.center) r.direction)
        - s.discriminant r := by
  simp only [sphere.discriminant, vec3.length_squared, vec3.dot, ray.at, ray.origin,
    ray.direction, vec3_add_x, vec3_add_y, vec3_add_z, vec3_sub_x, vec3_sub_y, vec3_sub_z,
    vec3_smul_x, vec3_smul_y, vec3_smul_z]
  ring

theorem on_surface_discriminant_nonneg (s : sphere K M) (r : ray K) (t : K)
    (h : s.on_surface r t) : 0 ≤ s.discriminant r := by
  have hq := sphere_quadratic s r t
  unfold sphere.on_surface at h
  rw [h, sub_self, mul_zero] at hq
  have := mul_self_nonneg
    (r.direction.length_squared * t + vec3.dot (r.origin - s.center) r.direction)
  linarith

theorem on_surface_iff (s : sphere K M) (sqrt : K → K) (hsqrt : SqrtSpec sqrt) (r : ray K)
    (hd : r.direction ≠ 0) (hdisc : 0 ≤ s.discriminant r) (t : K) :
    s.on_surface r t ↔ t = s.root1 sqrt r ∨ t = s.root2 sqrt r := by
  have ha := length_squared_pos hd
  have ha' : r.direction.length_squared ≠ 0 := ne_of_gt ha
  obtain ⟨-, hs2⟩ := hsqrt _ hdisc
  have hq := sphere_quadratic s r t
  unfold sphere.on_surface sphere.root1 sphere.root2
  rw [eq_div_iff ha', eq_div_iff ha']
  set a := r.direction.length_squared
  set hb := vec3.dot (r.origin - s.center) r.direction
  set sq := sqrt (s.discriminant r)
  constructor
  · intro h
    rw [h, sub_self, mul_zero, ← hs2] at hq
    have h2 : (a * t + hb) * (a * t + hb) = sq * sq := by linarith
    rcases mul_self_eq_mul_self_iff.mp h2 with h3 | h3
    · right; linarith
    · left; linarith
  · intro h
    have h2 : (a * t + hb) * (a * t + hb) = sq * sq := by
      rcases h with h | h
      · have : a * t + hb = -sq := by linarith
        rw [this]; ring
      · have : a * t + hb = sq := by linarith
        rw [this]
    rw [h2, hs2, sub_self] at hq
    rcases mul_eq_zero.mp hq with h3 | h3
    · exact absurd h3 ha'
    · linarith

theorem root1_le_root2 (s : sphere K M) (sqrt : K → K) (hsqrt : SqrtSpec sqrt) (r : ray K)
    (hd : r.direction ≠ 0) (hdisc : 0 ≤ s.discriminant r) :
    s.root1 sqrt r ≤ s.root2 sqrt r := by
  have ha := length_squared_pos hd
  obtain ⟨hs, -⟩ := hsqrt _ hdisc
  unfold sphere.root1 sphere.root2
  apply div_le_div_of_nonneg_right _ (le_of_lt ha)
  linarith

@[simp] theorem record_t (s : sphere K M) (r : ray K) (rec : hit_record K M) (root : K) :
    (s.record r rec root).t = root := rfl

@[simp] theorem record_p (s : sphere K M) (r : ray K) (rec : hit_record K M) (root : K) :
    (s.record r rec root).p = r.at root := rfl

end SphereHit

section SphereRecord

variable {K M : Type} [LinearOrderedField K]

@[simp] theorem record_front_face (s : sphere K M) (r : ray K) (rec : hit_record K M)
    (root : K) :
    (s.record r rec root).front_face
      = decide (vec3.dot r.direction ((r.at root - s.center) / s.radius) < 0) := rfl

@[simp] theorem record_normal (s : sphere K M) (r : ray K) (rec : hit_record K M)
    (root : K) :
    (s.record r rec root).normal
      = if decide (vec3.dot r.direction ((r.at root - s.center) / s.radius) < 0) = true
        then (r.at root - s.center) / s.radius else -((r.at root - s.center) / s.radius) :=
  rfl

@[simp] theorem record_mat_ptr (s : sphere K M) (r : ray K) (rec : hit_record K M)
    (root : K) : (s.record r rec root).mat_ptr = s.mat_ptr := rfl

/-- Every record that `sphere::hit` returns is the one built for its `t`, which is one of
the two roots. -/
theorem sphere_hit_some (s : sphere K M) (sqrt : K → K) (r : ray K) (t_min : K)
    (t_max : WithTop K) (rec rec1 : hit_record K M)
    (h : s.hit sqrt r t_min t_max rec = some rec1) :
    rec1 = s.record r rec rec1.t ∧
      (rec1.t = s.root1 sqrt r ∨ rec1.t = s.root2 sqrt r) := by
  rw [sphere_hit_eq] at h
  split_ifs at h
  · cases h; exact ⟨rfl, Or.inl rfl⟩
  · cases h; exact ⟨rfl, Or.inr rfl⟩

end SphereRecord

/-! ## `ray_color` -/

section RayColor

variable {σ K M : Type} [LinearOrderedField K]

/-- At a depth `≤ 0` the function `ray_color` returns black at once. -/
theorem ray_color_nonpos (sqrt : K → K) (mats : materials σ K M)
    (rec : hit_record K M) (world : hittable σ K M) (r : ray K) (depth : Int) (st : σ)
    (hdepth : depth ≤ 0) :
    ray_color sqrt mats rec world r depth st = (⟨0, 0, 0⟩, st) := by
  rw [ray_color]
  simp [hdepth]

/-- C2. For every ray, scene, material table and state, `ray_color` at a depth `≤ 0`
returns black and leaves the state as it was: neither the scene nor a material is
queried, whatever they are. -/
theorem ray_color_depth_exhausted (sqrt : K → K) (mats : materials σ K M)
    (rec : hit_record K M) (world : hittable σ K M) (r : ray K) (depth : Int) (st : σ)
    (hdepth : depth ≤ 0) :
    ray_color sqrt mats rec world r depth st = (⟨0, 0, 0⟩, st) := by
  rw [ray_color]
  simp [hdepth]

/-- The result of `unit_vector` on a non-zero vector has length one. -/
theorem unit_vector_length_squared (sqrt : K → K) (hsqrt : SqrtSpec sqrt) (v : vec3 K)
    (hv : v ≠ 0) : (vec3.unit_vector sqrt v).length_squared = 1 := by
  have hpos := length_squared_pos hv
  obtain ⟨h0, h2⟩ := hsqrt _ (le_of_lt hpos)
  have hne : sqrt v.length_squared ≠ 0 := by
    intro h; rw [h, mul_zero] at h2; exact absurd h2.symm (ne_of_gt hpos)
  unfold vec3.unit_vector vec3.length
  have : (v / sqrt v.length_squared).length_squared
      = v.length_squared / (sqrt v.length_squared * sqrt v.length_squared) := by
    simp only [vec3.length_squared, vec3_div_x, vec3_div_y, vec3_div_z]
    field_simp
  rw [this, h2, div_self (ne_of_gt hpos)]

/-- C3. For a depth `≥ 1` and a ray with non-zero direction that the scene's hit query on
`[0.001, +∞)` misses, `ray_color` returns `(1 - t)*(1,1,1) + t*(0.5,0.7,1.0)` with
`t = 0.5*(y + 1)`, `y` the vertical component of `unit_vector(direction)`, a vector of
length one; the colour is a function of that vector alone. -/
theorem ray_color_background (sqrt : K → K) (hsqrt : SqrtSpec sqrt) (mats : materials σ K M)
    (rec : hit_record K M) (world : hittable σ K M) (r : ray K) (depth : Int) (st : σ)
    (hdepth : 1 ≤ depth) (hd : r.direction ≠ 0)
    (hmiss : (world.hit r (1 / 1000) ⊤ rec st).1 = none) :
    (vec3.unit_vector sqrt r.direction).length_squared = 1 ∧
    ray_color sqrt mats rec world r depth st =
      ((1 - 1 / 2 * ((vec3.unit_vector sqrt r.direction).y + 1)) • (⟨1, 1, 1⟩ : vec3 K)
          + (1 / 2 * ((vec3.unit_vector sqrt r.direction).y + 1))
            • (⟨1 / 2, 7 / 10, 1⟩ : vec3 K),
        (world.hit r (1 / 1000) ⊤ rec st).2) := by
  refine ⟨unit_vector_length_squared sqrt hsqrt _ hd, ?_⟩
  rw [ray_color]
  have h : ¬ depth ≤ 0 := by omega
  simp only [h, dite_false]
  rcases hw : world.hit r (1 / 1000) ⊤ rec st with ⟨o, st1⟩
  rw [hw] at hmiss
  simp only at hmiss
  subst hmiss
  rfl

end RayColor

/-! ## Rays aimed at the centre of a sphere -/

section Aimed
variable {K M : Type} [LinearOrderedField K]

/-- The quantities of `sphere::hit` for a ray aimed at the centre from outside: the
direction is not zero, its length is `k` times the distance to the centre, the
discriminant is the square of `k * distance * radius`, and so is positive. -/
theorem aimed_quantities (s : sphere K M) (sqrt : K → K) (hsqrt : SqrtSpec sqrt) (r : ray K)
    (k : K) (hk : 0 < k) (hdir : r.direction = k • (s.center - r.origin))
    (hR : 0 < s.radius) (hout : s.radius < (r.origin - s.center).length sqrt) :
    r.direction ≠ 0 ∧
    r.direction.length sqrt = k * (r.origin - s.center).length sqrt ∧
    sqrt (s.discriminant r) = k * (r.origin - s.center).length sqrt * s.radius ∧
    0 < s.discriminant r ∧
    s.root1 sqrt r
      = ((r.origin - s.center).length sqrt - s.radius) / r.direction.length sqrt := by
  obtain ⟨hD0, hD2⟩ := hsqrt _ (length_squared_nonneg (r.origin - s.center))
  have hDpos : 0 < (r.origin - s.center).length sqrt := lt_trans hR hout
  unfold vec3.length at hout hDpos ⊢
  set Q := (r.origin - s.center).length_squared with hQ
  set D := sqrt Q with hDdef
  have ha : r.direction.length_squared = (k * D) * (k * D) := by
    have : r.direction.length_squared = k * k * Q := by
      rw [hdir, hQ]
      simp only [vec3.length_squared, vec3_smul_x, vec3_smul_y, vec3_smul_z, vec3_sub_x,
        vec3_sub_y, vec3_sub_z]
      ring
    rw [this, ← hD2]; ring
  have hb : vec3.dot (r.origin - s.center) r.direction = -(k * (D * D)) := by
    rw [hD2, hQ, hdir]
    simp only [vec3.dot, vec3.length_squared, vec3_smul_x, vec3_smul_y, vec3_smul_z,
      vec3_sub_x, vec3_sub_y, vec3_sub_z]
    ring
  have hkD : 0 < k * D := mul_pos hk hDpos
  have hdisc : s.discriminant r = (k * D * s.radius) * (k * D * s.radius) := by
    unfold sphere.discriminant
    rw [hb, ha, ← hQ, ← hD2]; ring
  have hsq : sqrt (s.discriminant r) = k * D * s.radius := by
    rw [hdisc]; exact hsqrt.sqrt_mul_self (le_of_lt (mul_pos hkD hR))
  have hlen : sqrt r.direction.length_squared = k * D := by
    rw [ha]; exact hsqrt.sqrt_mul_self (le_of_lt hkD)
  refine ⟨?_, hlen, hsq, ?_, ?_⟩
  · intro h0
    rw [h0] at ha
    have : (0 : vec3 K).length_squared = 0 := by simp [vec3.length_squared]
    rw [this] at ha
    exact absurd ha.symm (ne_of_gt (mul_pos hkD hkD))
  · rw [hdisc]; exact mul_pos (mul_pos hkD hR) (mul_pos hkD hR)
  · unfold sphere.root1
    rw [hsq, hlen, hb, ha]
    have hk' : k ≠ 0 := ne_of_gt hk
    have hD' : D ≠ 0 := ne_of_gt hDpos
    field_simp
    ring

/-- The direction dotted with the outward normal at the point of parameter `t`. -/
theorem dot_direction_outward (s : sphere K M) (r : ray K) (t : K) :
    vec3.dot r.direction ((r.at t - s.center) / s.radius)
      = (vec3.dot (r.origin - s.center) r.direction + r.direction.length_squared * t)
          / s.radius := by
  simp only [vec3.dot, vec3.length_squared, ray.at, ray.origin, ray.direction, vec3_add_x,
    vec3_add_y, vec3_add_z, vec3_sub_x, vec3_sub_y, vec3_sub_z, vec3_smul_x, vec3_smul_y,
    vec3_smul_z, vec3_div_x, vec3_div_y, vec3_div_z]
  ring

/-- At the smaller root the direction dotted with the outward normal is
`-sqrt(discriminant) / radius`. -/
theorem dot_direction_outward_root1 (s : sphere K M) (sqrt : K → K) (r : ray K)
    (hd : r.direction ≠ 0) :
    vec3.dot r.direction ((r.at (s.root1 sqrt r) - s.center) / s.radius)
      = -sqrt (s.discriminant r) / s.radius := by
  rw [dot_direction_outward]
  unfold sphere.root1
  rw [mul_div_cancel₀ _ (ne_of_gt (length_squared_pos hd))]
  ring

/-- At the larger root the direction dotted with the outward normal is
`sqrt(discriminant) / radius`. -/
theorem dot_direction_outward_root2 (s : sphere K M) (sqrt : K → K) (r : ray K)
    (hd : r.direction ≠ 0) :
    vec3.dot r.direction ((r.at (s.root2 sqrt r) - s.center) / s.radius)
      = sqrt (s.discriminant r) / s.radius := by
  rw [dot_direction_outward]
  unfold sphere.root2
  rw [mul_div_cancel₀ _ (ne_of_gt (length_squared_pos hd))]
  ring

end Aimed

/-! ## The scene of `main` -/

section Scene
variable {K : Type} [LinearOrderedField K]

omit [LinearOrderedField K] in
theorem hit_record_ext {M : Type} {a b : hit_record K M} (hp : a.p = b.p)
    (hn : a.normal = b.normal) (hm : a.mat_ptr = b.mat_ptr) (ht : a.t = b.t)
    (hf : a.front_face = b.front_face) : a = b := by
  cases a; cases b; simp_all

/-- C7. In the scene of `main`, for the ray from `(0,0,0)` with direction `(0,0,-1)` on
`[0.001, +∞)`: `sphere::hit` on the sphere of radius `0.5` at `(0,0,-1)` succeeds with
`t = 0.5`, hit point `(0,0,-0.5)`, normal `(0,0,1)` and `front_face = true`, and on the
ground sphere of radius `100` at `(0,-100.5,-1)` it reports no hit at all, so the nearest
hit over both spheres is the small sphere. -/
theorem main_scene_axis_ray (sqrt : K → K) (hsqrt : SqrtSpec sqrt)
    (rec : hit_record K material_handle) :
    (main.sphere_center K).hit sqrt (axis_ray K) (1 / 1000) ⊤ rec
      = some { p := ⟨0, 0, -(1 / 2)⟩, normal := ⟨0, 0, 1⟩, mat_ptr := .material_center,
               t := 1 / 2, front_face := true } ∧
    (main.sphere_ground K).hit sqrt (axis_ray K) (1 / 1000) ⊤ rec = none := by
  constructor
  · have hdisc : (main.sphere_center K).discriminant (axis_ray K) = (1 / 2) * (1 / 2) := by
      simp only [sphere.discriminant, main.sphere_center, axis_ray, vec3.dot,
        vec3.length_squared, ray.origin, ray.direction, vec3_sub_x, vec3_sub_y, vec3_sub_z]
      norm_num
    have hsq : sqrt ((main.sphere_center K).discriminant (axis_ray K)) = 1 / 2 := by
      rw [hdisc]; exact hsqrt.sqrt_mul_self (by norm_num)
    have hroot : (main.sphere_center K).root1 sqrt (axis_ray K) = 1 / 2 := by
      unfold sphere.root1
      rw [hsq]
      simp only [main.sphere_center, axis_ray, vec3.dot,
        vec3.length_squared, ray.origin, ray.direction, vec3_sub_x, vec3_sub_y, vec3_sub_z]
      norm_num
    rw [sphere_hit_eq, hroot, hdisc]
    have h1 : ¬ ((1 / 2 : K) * (1 / 2) < 0) := by norm_num
    have h2 : (1 / 1000 : K) ≤ 1 / 2 := by norm_num
    simp only [h1, h2, le_top, and_self, if_true, if_false, Option.some.injEq]
    have hout : ((axis_ray K).at (1 / 2) - (main.sphere_center K).center)
        / (main.sphere_center K).radius = ⟨0, 0, 1⟩ := by
      apply vec3_ext <;> norm_num [main.sphere_center, axis_ray, ray.at]
    have hdot : vec3.dot (axis_ray K).direction (⟨0, 0, 1⟩ : vec3 K) < 0 := by
      simp [axis_ray, vec3.dot, ray.direction]
    apply hit_record_ext
    · rw [record_p]
      apply vec3_ext <;> simp [axis_ray, ray.at]
    · rw [record_normal, hout]
      simp [hdot]
    · rfl
    · rfl
    · rw [record_front_face, hout]
      simp [hdot]
  · have hdisc : (main.sphere_ground K).discriminant (axis_ray K) < 0 := by
      simp only [sphere.discriminant, main.sphere_ground, axis_ray, vec3.dot,
        vec3.length_squared, ray.origin, ray.direction, vec3_sub_x, vec3_sub_y, vec3_sub_z]
      norm_num
    rw [sphere_hit_eq]
    simp [hdisc]
end Scene

/-! ## `render_scanline` and the bands of `main` -/

section Partition
variable {C : Type}

theorem columns_eq (pixel : Int → Int → C) (W j : Int) :
    ∀ (n : Nat) (i : Int) (buf : List C), (W - i).toNat = n →
      render_scanline.columns pixel W j i buf
        = buf ++ (List.range n).map fun (k : Nat) => pixel (i + (k : Int)) j := by
  intro n
  induction n with
  | zero =>
    intro i buf h
    rw [render_scanline.columns]
    have : ¬ i < W := by omega
    simp [this]
  | succ n ih =>
    intro i buf h
    rw [render_scanline.columns]
    have hi : i < W := by omega
    rw [if_pos hi, ih (i + 1) _ (by omega), List.range_succ_eq_map, List.map_cons,
      List.map_map, List.append_assoc]
    simp only [List.singleton_append, Nat.cast_zero, add_zero, List.cons.injEq, true_and,
      List.append_cancel_left_eq]
    apply List.map_congr_left
    intro k _
    simp only [Function.comp_apply, Nat.succ_eq_add_one, Nat.cast_add, Nat.cast_one]
    congr 1; ring

theorem columns_row (pixel : Int → Int → C) (W j : Int) (buf : List C) :
    render_scanline.columns pixel W j 0 buf = buf ++ scanline_row pixel W j := by
  rw [columns_eq pixel W j (W.toNat) 0 buf (by simp), scanline_row]
  simp

theorem scanline_block_succ (pixel : Int → Int → C) (W top : Int) (n : Nat) :
    scanline_block pixel W top (n + 1)
      = scanline_row pixel W top ++ scanline_block pixel W (top - 1) n := by
  unfold scanline_block
  rw [List.range_succ_eq_map, List.flatMap_cons, List.flatMap_map]
  simp only [Nat.cast_zero, sub_zero, List.append_cancel_left_eq]
  congr 1
  funext k
  simp only [Nat.succ_eq_add_one, Nat.cast_add, Nat.cast_one]
  congr 1; ring

theorem lines_eq (pixel : Int → Int → C) (W stop : Int) :
    ∀ (n : Nat) (j : Int) (buf : List C), (j + 1 - stop).toNat = n →
      render_scanline.lines pixel W stop j buf = buf ++ scanline_block pixel W j n := by
  intro n
  induction n with
  | zero =>
    intro j buf h
    rw [render_scanline.lines]
    have : ¬ j ≥ stop := by omega
    simp [this, scanline_block]
  | succ n ih =>
    intro j buf h
    rw [render_scanline.lines]
    have hj : j ≥ stop := by omega
    rw [if_pos hj, ih (j - 1) _ (by omega), columns_row, scanline_block_succ,
      List.append_assoc]

theorem render_scanline_eq (data : render_data) (pixel : Int → Int → C) (buf : List C) :
    render_scanline data pixel buf
      = buf ++ scanline_block pixel data.image_width (data.image_height - 1 - data.idx)
          (band_lines data.image_height data.idx data.num) := by
  unfold render_scanline band_lines
  simp only
  apply lines_eq
  omega


theorem scanline_block_add (pixel : Int → Int → C) (W top : Int) (m n : Nat) :
    scanline_block pixel W top (m + n)
      = scanline_block pixel W top m ++ scanline_block pixel W (top - (m : Int)) n := by
  unfold scanline_block
  rw [List.range_add, List.flatMap_append, List.flatMap_map]
  congr 2
  funext k
  simp only [Nat.cast_add]
  congr 1; ring

theorem spawn_eq (pixel : Int → Int → C) (W H N S : Int) :
    ∀ (n : Nat) (p : Int) (buffer : List (List C)), (N - p).toNat = n →
      main.spawn pixel W H N S p buffer
        = buffer ++ (List.range n).map fun (q : Nat) =>
            render_scanline { idx := (p + (q : Int)) * S, num := S, image_width := W,
                              image_height := H } pixel [] := by
  intro n
  induction n with
  | zero =>
    intro p buffer h
    rw [main.spawn]
    have : ¬ p < N := by omega
    simp [this]
  | succ n ih =>
    intro p buffer h
    rw [main.spawn]
    have hp : p < N := by omega
    rw [if_pos hp, ih (p + 1) _ (by omega), List.range_succ_eq_map, List.map_cons,
      List.map_map, List.append_assoc]
    simp only [List.singleton_append, Nat.cast_zero, add_zero, List.cons.injEq, true_and,
      List.append_cancel_left_eq]
    apply List.map_congr_left
    intro k _
    simp only [Function.comp_apply, Nat.succ_eq_add_one, Nat.cast_add, Nat.cast_one]
    congr 3; ring

/-- The band size is at least one and `num_threads` bands cover the image. -/
theorem scanlinesPerThread_spec (H N : Int) (hH : 1 ≤ H) (hN : 1 ≤ N) :
    1 ≤ scanlinesPerThread H N ∧ H ≤ N * scanlinesPerThread H N := by
  unfold scanlinesPerThread
  have hNq : (0 : ℚ) < (N : ℚ) := by exact_mod_cast (by omega : 0 < N)
  have hHq : (0 : ℚ) < (H : ℚ) := by exact_mod_cast (by omega : 0 < H)
  constructor
  · have : 0 < ⌈(H : ℚ) / (N : ℚ)⌉ := Int.ceil_pos.mpr (div_pos hHq hNq)
    omega
  · have h1 := Int.le_ceil ((H : ℚ) / (N : ℚ))
    rw [div_le_iff₀ hNq] at h1
    have h2 : (H : ℚ) ≤ ((N * ⌈(H : ℚ) / (N : ℚ)⌉ : Int) : ℚ) := by
      push_cast; linarith
    exact_mod_cast h2

/-- The band size is the least number of lines with which `num_threads` bands cover the
image. -/
theorem scanlinesPerThread_least (H N : Int) (hN : 1 ≤ N) :
    N * (scanlinesPerThread H N - 1) < H := by
  unfold scanlinesPerThread
  have hNq : (0 : ℚ) < (N : ℚ) := by exact_mod_cast (by omega : 0 < N)
  have h1 := Int.ceil_lt_add_one ((H : ℚ) / (N : ℚ))
  have h2 : ((⌈(H : ℚ) / (N : ℚ)⌉ : Int) : ℚ) - 1 < (H : ℚ) / (N : ℚ) := by linarith
  rw [lt_div_iff₀ hNq] at h2
  have h3 : ((N * (⌈(H : ℚ) / (N : ℚ)⌉ - 1) : Int) : ℚ) < (H : ℚ) := by
    push_cast; linarith
  exact_mod_cast h3

/-- The first `k` bands together are the top `min (k*S) H` scanlines. -/
theorem bands_first (pixel : Int → Int → C) (W H S : Int) (hH : 0 ≤ H) (hS : 0 ≤ S)
    (k : Nat) :
    ((List.range k).map fun (q : Nat) =>
        scanline_block pixel W (H - 1 - (q : Int) * S) (band_lines H ((q : Int) * S) S)).flatten
      = scanline_block pixel W (H - 1) (min ((k : Int) * S) H).toNat := by
  induction k with
  | zero => simp [scanline_block]
  | succ k ih =>
    rw [List.range_succ, List.map_append, List.flatten_append, ih]
    simp only [List.map_cons, List.map_nil, List.flatten_cons, List.flatten_nil,
      List.append_nil]
    have hk : (0 : Int) ≤ (k : Int) * S := mul_nonneg (Int.natCast_nonneg k) hS
    have hsucc : ((k + 1 : Nat) : Int) * S = (k : Int) * S + S := by push_cast; ring
    rw [hsucc]
    by_cases hc : (k : Int) * S ≤ H
    · have e1 : (min ((k : Int) * S + S) H).toNat
          = (min ((k : Int) * S) H).toNat + band_lines H ((k : Int) * S) S := by
        unfold band_lines; omega
      have e2 : H - 1 - (k : Int) * S = H - 1 - (((min ((k : Int) * S) H).toNat : Nat) : Int) := by
        omega
      rw [e1, scanline_block_add, ← e2]
    · have e1 : band_lines H ((k : Int) * S) S = 0 := by unfold band_lines; omega
      have e2 : (min ((k : Int) * S + S) H).toNat = (min ((k : Int) * S) H).toNat := by omega
      rw [e1, e2]
      simp [scanline_block]

theorem sequential_order_eq (pixel : Int → Int → C) (W : Int) (n : Nat) :
    sequential_order pixel W (n : Int) = scanline_block pixel W ((n : Int) - 1) n := by
  unfold sequential_order
  simp only [Int.toNat_ofNat]
  induction n with
  | zero => simp [scanline_block]
  | succ n ih =>
    rw [List.range_succ, List.reverse_append, List.reverse_singleton, List.singleton_append,
      List.flatMap_cons, ih, scanline_block_succ]
    simp only [Nat.cast_add, Nat.cast_one, add_sub_cancel_right]
    rfl

/-- The pixels that `main` writes are the band buffers for `p = 0, ..., N-1` one after
the other. -/
theorem main_pixels_flatMap (pixel : Int → Int → C) (W H N : Int) :
    main.pixels pixel W H N
      = (List.range N.toNat).flatMap fun (p : Nat) =>
          render_scanline { idx := (p : Int) * scanlinesPerThread H N,
                            num := scanlinesPerThread H N,
                            image_width := W, image_height := H } pixel [] := by
  unfold main.pixels main.buffers
  rw [spawn_eq pixel W H N _ N.toNat 0 [] (by simp), List.flatMap_def]
  simp only [List.nil_append, zero_add]

theorem main_pixels_eq (pixel : Int → Int → C) (W H N : Int) (hH : 1 ≤ H) (hN : 1 ≤ N) :
    main.pixels pixel W H N = sequential_order pixel W H := by
  obtain ⟨hS1, hcover⟩ := scanlinesPerThread_spec H N hH hN
  unfold main.pixels main.buffers
  rw [spawn_eq pixel W H N _ N.toNat 0 [] (by simp)]
  simp only [List.nil_append, zero_add, render_scanline_eq]
  rw [bands_first pixel W H _ (by omega) (by omega)]
  have hNn : ((N.toNat : Nat) : Int) = N := Int.toNat_of_nonneg (by omega)
  rw [hNn, min_eq_right hcover]
  lift H to ℕ using (by omega : 0 ≤ H) with h
  rw [sequential_order_eq, Int.toNat_ofNat]


theorem sequential_order_mem (W H : Int) (j i : Int) :
    (j, i) ∈ sequential_order (fun i j => (j, i)) W H
      ↔ (0 ≤ j ∧ j < H) ∧ (0 ≤ i ∧ i < W) := by
  unfold sequential_order
  simp only [List.mem_flatMap, List.mem_reverse, List.mem_range, List.mem_map, Prod.mk.injEq]
  constructor
  · rintro ⟨a, ha, b, hb, rfl, rfl⟩
    omega
  · rintro ⟨⟨hj0, hj⟩, hi0, hi⟩
    exact ⟨j.toNat, by omega, i.toNat, by omega, by omega, by omega⟩

theorem sequential_order_nodup (W H : Int) :
    (sequential_order (fun i j => (j, i)) W H).Nodup := by
  unfold sequential_order
  rw [List.nodup_flatMap]
  constructor
  · intro j _
    apply List.Nodup.map _ (List.nodup_range _)
    intro a b h
    simpa using h
  · have hnd : ((List.range H.toNat).reverse).Nodup :=
      List.nodup_reverse.mpr (List.nodup_range _)
    apply List.Pairwise.imp _ hnd
    intro a b hab
    simp only [Function.onFun, List.disjoint_left, List.mem_map, List.mem_range,
      not_exists, not_and]
    rintro x ⟨i, _, rfl⟩ k _ h
    simp only [Prod.mk.injEq, Nat.cast_inj] at h
    exact hab h.1.symm

/-- C8. Partitioning does not change the pixel order: for `H ≥ 1`, `W ≥ 1`, `N ≥ 1` and band
size `S = ceil(H/N)`, the buffers that `render_scanline` fills for the band starts `p*S`,
`p = 0..N-1`, concatenated in band order, are the sequential order (scanline `H-1` down to
`0`, in each scanline column `0` to `W-1`), whatever is computed for a pixel; every
coordinate `(j, i)` of the image appears exactly once; a band starting at or past `H`
contributes nothing. -/
theorem partition_preserves_order (W H N : Int) (hH : 1 ≤ H) (_hW : 1 ≤ W) (hN : 1 ≤ N) :
    ((List.range N.toNat).flatMap fun (p : Nat) =>
        render_scanline { idx := (p : Int) * scanlinesPerThread H N,
                          num := scanlinesPerThread H N,
                          image_width := W, image_height := H } (fun i j => (j, i)) [])
      = sequential_order (fun i j => (j, i)) W H ∧
    (∀ (C : Type) (pixel : Int → Int → C),
        main.pixels pixel W H N = sequential_order pixel W H) ∧
    (main.pixels (fun i j => (j, i)) W H N).Nodup ∧
    (∀ j i : Int, (j, i) ∈ main.pixels (fun i j => (j, i)) W H N
        ↔ (0 ≤ j ∧ j < H) ∧ (0 ≤ i ∧ i < W)) ∧
    (∀ (C : Type) (pixel : Int → Int → C) (p : Int),
        H ≤ p * scanlinesPerThread H N →
        render_scanline { idx := p * scanlinesPerThread H N,
                          num := scanlinesPerThread H N,
                          image_width := W, image_height := H } pixel [] = []) := by
  refine ⟨?_, fun C pixel => main_pixels_eq pixel W H N hH hN, ?_, ?_, ?_⟩
  · rw [← main_pixels_eq _ W H N hH hN, main_pixels_flatMap]
  · rw [main_pixels_eq _ W H N hH hN]
    exact sequential_order_nodup W H
  · intro j i
    rw [main_pixels_eq _ W H N hH hN]
    exact sequential_order_mem W H j i
  · intro C pixel p hp
    rw [render_scanline_eq]
    have : band_lines H (p * scanlinesPerThread H N) (scanlinesPerThread H N) = 0 := by
      unfold band_lines; omega
    simp [this, scanline_block]


theorem scanline_block_length (pixel : Int → Int → C) (W top : Int) (n : Nat) :
    (scanline_block pixel W top n).length = n * W.toNat := by
  induction n generalizing top with
  | zero => simp [scanline_block]
  | succ n ih =>
    rw [scanline_block_succ, List.length_append, ih, scanline_row, List.length_map,
      List.length_range]
    ring

/-- C9. For `H ≥ 1`, `W ≥ 0`, `N ≥ 1` and a band index `0 ≤ p < N`, with `S = ceil(H/N)`,
the buffer filled by `render_scanline` for the band start `p*S` holds exactly
`W * min(S, max(H - p*S, 0))` colours, and the buffers of all bands together hold exactly
`W * H` colours. -/
theorem band_buffer_length (W H N : Int) (hH : 1 ≤ H) (hW : 0 ≤ W) (hN : 1 ≤ N) :
    (∀ (C : Type) (pixel : Int → Int → C) (p : Int), 0 ≤ p → p < N →
        ((render_scanline { idx := p * scanlinesPerThread H N,
                            num := scanlinesPerThread H N,
                            image_width := W, image_height := H } pixel []).length : Int)
          = W * min (scanlinesPerThread H N) (max (H - p * scanlinesPerThread H N) 0)) ∧
    (∀ (C : Type) (pixel : Int → Int → C),
        ((((main.buffers pixel W H N).map List.length).sum : Nat) : Int) = W * H) := by
  obtain ⟨hS1, -⟩ := scanlinesPerThread_spec H N hH hN
  constructor
  · intro C pixel p _ _
    rw [render_scanline_eq, List.nil_append, scanline_block_length]
    unfold band_lines
    simp only
    push_cast
    rw [Int.toNat_of_nonneg hW, Int.toNat_of_nonneg (by omega)]
    ring
  · intro C pixel
    rw [← List.length_flatten, ← main.pixels, main_pixels_eq pixel W H N hH hN]
    lift H to ℕ using (by omega : 0 ≤ H) with h
    rw [sequential_order_eq, scanline_block_length]
    push_cast
    rw [Int.toNat_of_nonneg hW]
    ring

end Partition

/-! ## Instances at concrete inputs -/

section Witnesses

theorem axis_ray_direction_ne_zero (K : Type) [LinearOrderedField K] :
    (axis_ray K).direction ≠ 0 := by
  intro h
  have hz := congrArg vec3.z h
  simp [axis_ray, ray.direction] at hz

/-- C2 at depth `0` with a world and materials that count their calls: the count stays
`0`. -/
theorem ray_color_depth_exhausted_witness :
    (0 : Int) ≤ 0 ∧
    ray_color (fun x : ℚ => x) (counting_materials ℚ Unit) (blank_record ℚ Unit ())
        (counting_world ℚ Unit) (axis_ray ℚ) 0 0 = (⟨0, 0, 0⟩, 0) :=
  ⟨le_refl 0, ray_color_depth_exhausted (fun x : ℚ => x) (counting_materials ℚ Unit)
    (blank_record ℚ Unit ()) (counting_world ℚ Unit) (axis_ray ℚ) 0 0 (le_refl 0)⟩

/-- C3 at depth `50` in a world without primitives. -/
theorem ray_color_background_witness :
    SqrtSpec Real.sqrt ∧ (1 : Int) ≤ 50 ∧ (axis_ray ℝ).direction ≠ 0 ∧
    ((empty_world Nat ℝ Unit).hit (axis_ray ℝ) (1 / 1000) ⊤ (blank_record ℝ Unit ()) 0).1
      = none ∧
    ray_color Real.sqrt (counting_materials ℝ Unit) (blank_record ℝ Unit ())
        (empty_world Nat ℝ Unit) (axis_ray ℝ) 50 0 =
      ((1 - 1 / 2 * ((vec3.unit_vector Real.sqrt (axis_ray ℝ).direction).y + 1))
            • (⟨1, 1, 1⟩ : vec3 ℝ)
          + (1 / 2 * ((vec3.unit_vector Real.sqrt (axis_ray ℝ).direction).y + 1))
            • (⟨1 / 2, 7 / 10, 1⟩ : vec3 ℝ), 0) :=
  ⟨real_sqrt_spec, by decide, axis_ray_direction_ne_zero ℝ, rfl,
    (ray_color_background Real.sqrt real_sqrt_spec (counting_materials ℝ Unit)
      (blank_record ℝ Unit ()) (empty_world Nat ℝ Unit) (axis_ray ℝ) 50 0 (by decide)
      (axis_ray_direction_ne_zero ℝ) rfl).2⟩

end Witnesses

section WitnessesSphere

theorem long_axis_ray_lengths {K : Type} [LinearOrderedField K] (sqrt : K → K)
    (hsqrt : SqrtSpec sqrt) :
    ((long_axis_ray K).origin - (far_sphere K).center).length sqrt = 2 ∧
    (long_axis_ray K).direction.length sqrt = 2 := by
  have h := hsqrt.sqrt_mul_self (zero_le_two : (0 : K) ≤ 2)
  constructor
  · simpa [vec3.length, vec3.length_squared, long_axis_ray, far_sphere, ray.origin] using h
  · simpa [vec3.length, vec3.length_squared, long_axis_ray, ray.direction] using h

theorem long_axis_ray_direction :
    (long_axis_ray ℝ).direction = (far_sphere ℝ).center - (long_axis_ray ℝ).origin := by
  apply vec3_ext <;> norm_num [long_axis_ray, far_sphere, ray.direction, ray.origin]

theorem long_axis_ray_direction_smul :
    (long_axis_ray ℝ).direction
      = (1 : ℝ) • ((far_sphere ℝ).center - (long_axis_ray ℝ).origin) := by
  apply vec3_ext <;> norm_num [long_axis_ray, far_sphere, ray.direction, ray.origin]

end WitnessesSphere

section WitnessesScene

theorem axis_ray_direction :
    (axis_ray ℝ).direction
      = (1 : ℝ) • ((main.sphere_center ℝ).center - (axis_ray ℝ).origin) := by
  apply vec3_ext <;> norm_num [axis_ray, main.sphere_center, ray.direction, ray.origin]

theorem axis_ray_outside :
    (main.sphere_center ℝ).radius
      < ((axis_ray ℝ).origin - (main.sphere_center ℝ).center).length Real.sqrt := by
  have h : ((axis_ray ℝ).origin - (main.sphere_center ℝ).center).length Real.sqrt = 1 := by
    simp [vec3.length, vec3.length_squared, axis_ray, main.sphere_center, ray.origin]
  rw [h]; norm_num [main.sphere_center]

theorem axis_ray_on_surface (t : ℝ) :
    ((axis_ray ℝ).at t - (main.sphere_center ℝ).center).length_squared
        = (main.sphere_center ℝ).radius * (main.sphere_center ℝ).radius
      ↔ (1 - t) * (1 - t) = 1 / 4 := by
  simp only [vec3.length_squared, axis_ray, main.sphere_center, ray.at, vec3_add_x,
    vec3_add_y, vec3_add_z, vec3_sub_x, vec3_sub_y, vec3_sub_z, vec3_smul_x, vec3_smul_y,
    vec3_smul_z]
  constructor <;> intro h <;> linarith

/-- C7 over the real numbers. -/
theorem main_scene_axis_ray_witness :
    SqrtSpec Real.sqrt ∧
    (main.sphere_center ℝ).hit Real.sqrt (axis_ray ℝ) (1 / 1000) ⊤
        (blank_record ℝ material_handle .material_ground)
      = some { p := ⟨0, 0, -(1 / 2)⟩, normal := ⟨0, 0, 1⟩, mat_ptr := .material_center,
               t := 1 / 2, front_face := true } ∧
    (main.sphere_ground ℝ).hit Real.sqrt (axis_ray ℝ) (1 / 1000) ⊤
        (blank_record ℝ material_handle .material_ground) = none :=
  ⟨real_sqrt_spec, main_scene_axis_ray Real.sqrt real_sqrt_spec
    (blank_record ℝ material_handle .material_ground)⟩

end WitnessesScene

section WitnessesImage

/-- C8 at the image of `main`: width `400`, height `225`, `15` bands. -/
theorem partition_preserves_order_witness :
    main.pixels (fun i j => (j, i)) 400 225 15
      = sequential_order (fun i j => (j, i)) 400 225 :=
  (partition_preserves_order 400 225 15 (by decide) (by decide) (by decide)).2.1 _ _

/-- C9 at the image of `main`: `400 * 225` colours in all. -/
theorem band_buffer_length_witness :
    ((((main.buffers (fun i j => (j, i)) 400 225 15).map List.length).sum : Nat) : Int)
      = 400 * 225 :=
  (band_buffer_length 400 225 15 (by decide) (by decide) (by decide)).2 _ _

end WitnessesImage

/-! ## The header of the image -/

section Header

/-- C11. For image width `400` and aspect ratio `16/9` the derived image height is
`trunc(400 / (16/9)) = 225`, and the header that `main` writes is the three lines `P3`,
`400 225`, `255`. -/
theorem main_header (K : Type) [LinearOrderedField K] [FloorRing K] :
    main.image_height K = 225 ∧
    main.header main.image_width (main.image_height K) = "P3\n400 225\n255\n" ∧
    main.header main.image_width (main.image_height K)
      = text_of_lines ["P3", "400 225", "255"] := by
  have h : main.image_height K = 225 := by
    unfold main.image_height main.image_width main.aspect_ratio static_cast_int
    have e : ((400 : Int) : K) / (16 / 9) = ((225 : Int) : K) := by norm_num
    rw [e, if_pos (by norm_num), Int.floor_intCast]
  rw [h]
  exact ⟨rfl, by decide, by decide⟩

end Header

/-! ## `ray_color` on a hit, and its cost -/

section RayColorHit
variable {σ K M : Type} [LinearOrderedField K]

/-- One unfolding of `ray_color` at a positive depth. -/
theorem ray_color_step (sqrt : K → K) (mats : materials σ K M) (rec : hit_record K M)
    (world : hittable σ K M) (r : ray K) (depth : Int) (st : σ) (hdepth : 1 ≤ depth) :
    ray_color sqrt mats rec world r depth st =
      match world.hit r (1 / 1000) ⊤ rec st with
      | (some rec1, st1) =>
        match mats.scatter rec1.mat_ptr r rec1 st1 with
        | (some (attenuation, scattered), st2) =>
          (attenuation * (ray_color sqrt mats rec world scattered (depth - 1) st2).1,
            (ray_color sqrt mats rec world scattered (depth - 1) st2).2)
        | (none, st2) => (⟨0, 0, 0⟩, st2)
      | (none, st1) =>
        ((1 - 1 / 2 * ((vec3.unit_vector sqrt r.direction).y + 1)) • (⟨1, 1, 1⟩ : vec3 K)
          + (1 / 2 * ((vec3.unit_vector sqrt r.direction).y + 1))
            • (⟨1 / 2, 7 / 10, 1⟩ : vec3 K), st1) := by
  rw [ray_color]
  have h : ¬ depth ≤ 0 := by omega
  simp only [h, dite_false]

/-- C12. For a depth `≥ 1` and a ray for which the scene's hit query on `[0.001, +∞)`
reports a hit: if the `scatter` of the hit material declines, `ray_color` returns black;
otherwise it returns the component-wise product of the attenuation with `ray_color` of the
scattered ray in the same scene at `depth - 1`. -/
theorem ray_color_hit (sqrt : K → K) (mats : materials σ K M) (rec : hit_record K M)
    (world : hittable σ K M) (r : ray K) (depth : Int) (st : σ)
    (rec1 : hit_record K M) (st1 : σ) (hdepth : 1 ≤ depth)
    (hhit : world.hit r (1 / 1000) ⊤ rec st = (some rec1, st1)) :
    (∀ st2 : σ, mats.scatter rec1.mat_ptr r rec1 st1 = (none, st2) →
      ray_color sqrt mats rec world r depth st = (⟨0, 0, 0⟩, st2)) ∧
    (∀ (attenuation : vec3 K) (scattered : ray K) (st2 : σ),
      mats.scatter rec1.mat_ptr r rec1 st1 = (some (attenuation, scattered), st2) →
      ray_color sqrt mats rec world r depth st
        = (attenuation * (ray_color sqrt mats rec world scattered (depth - 1) st2).1,
            (ray_color sqrt mats rec world scattered (depth - 1) st2).2)) := by
  constructor
  · intro st2 hs
    rw [ray_color_step sqrt mats rec world r depth st hdepth, hhit]
    simp only [hs]
  · intro attenuation scattered st2 hs
    rw [ray_color_step sqrt mats rec world r depth st hdepth, hhit]
    simp only [hs]

/-- C13. `ray_color` is a total function, defined by recursion on `depth`, for every scene,
every scatter behaviour and every integer depth; run with ghost counters it computes the
same colour and state, and along one evaluation it makes at most `max(depth, 0)` scene hit
queries and at most `max(depth, 0)` calls of `scatter`. -/
theorem ray_color_call_bound (sqrt : K → K) (mats : materials σ K M)
    (rec : hit_record K M) (world : hittable σ K M) (r : ray K) (depth : Int) (st : σ)
    (hits scatters : Nat) :
    (ray_color sqrt mats.counted rec world.counted r depth (st, hits, scatters)).1
      = (ray_color sqrt mats rec world r depth st).1 ∧
    (ray_color sqrt mats.counted rec world.counted r depth (st, hits, scatters)).2.1
      = (ray_color sqrt mats rec world r depth st).2 ∧
    (ray_color sqrt mats.counted rec world.counted r depth (st, hits, scatters)).2.2.1
      ≤ hits + (max depth 0).toNat ∧
    (ray_color sqrt mats.counted rec world.counted r depth (st, hits, scatters)).2.2.2
      ≤ scatters + (max depth 0).toNat := by
  generalize hn : depth.toNat = n
  induction n generalizing depth r st hits scatters with
  | zero =>
    have hd : depth ≤ 0 := by omega
    rw [ray_color_nonpos _ _ _ _ _ _ _ hd, ray_color_nonpos _ _ _ _ _ _ _ hd]
    simp
  | succ n ih =>
    have hd : 1 ≤ depth := by omega
    rw [ray_color_step _ _ _ _ _ _ _ hd, ray_color_step _ _ _ _ _ _ _ hd]
    simp only [hittable.counted, materials.counted]
    rcases hw : world.hit r (1 / 1000) ⊤ rec st with ⟨o, st1⟩
    cases o with
    | none => exact ⟨rfl, rfl, by simp only; omega, by simp only; omega⟩
    | some rec1 =>
      simp only
      rcases hs : mats.scatter rec1.mat_ptr r rec1 st1 with ⟨o2, st2⟩
      cases o2 with
      | none => exact ⟨rfl, rfl, by simp only; omega, by simp only; omega⟩
      | some pr =>
        obtain ⟨attenuation, scattered⟩ := pr
        simp only
        obtain ⟨h1, h2, h3, h4⟩ := ih scattered (depth - 1) st2 (hits + 1) (scatters + 1)
          (by omega)
        simp only [hittable.counted, materials.counted] at h1 h2 h3 h4
        refine ⟨by rw [h1], h2, ?_, ?_⟩ <;> omega
end RayColorHit

section WitnessesRayColor

/-- C12 at depth `1` with a world that always reports a hit and materials that always
scatter. -/
theorem ray_color_hit_witness :
    ray_color (fun x : ℚ => x) (counting_materials ℚ Unit) (blank_record ℚ Unit ())
        (counting_world ℚ Unit) (axis_ray ℚ) 1 0
      = (⟨1, 1, 1⟩ * (ray_color (fun x : ℚ => x) (counting_materials ℚ Unit)
            (blank_record ℚ Unit ()) (counting_world ℚ Unit) (axis_ray ℚ) (1 - 1) 2).1,
          (ray_color (fun x : ℚ => x) (counting_materials ℚ Unit)
            (blank_record ℚ Unit ()) (counting_world ℚ Unit) (axis_ray ℚ) (1 - 1) 2).2) :=
  (ray_color_hit (fun x : ℚ => x) (counting_materials ℚ Unit) (blank_record ℚ Unit ())
    (counting_world ℚ Unit) (axis_ray ℚ) 1 0 (blank_record ℚ Unit ()) 1 (le_refl 1) rfl).2
    ⟨1, 1, 1⟩ (axis_ray ℚ) 2 rfl

end WitnessesRayColor

/-! ## The constructor of `sphere` takes every radius -/

section Constructor
variable {K M : Type} [LinearOrderedField K]

/-- Whether `sphere::hit` succeeds, and with which `t` and `p`, depends on the radius only
through its square. -/
theorem sphere_hit_neg_radius (cen : vec3 K) (radius : K) (m : M) (sqrt : K → K)
    (r : ray K) (t_min : K) (t_max : WithTop K) (rec : hit_record K M) :
    ((sphere.sphere cen radius m).hit sqrt r t_min t_max rec).map
        (fun rec1 => (rec1.t, rec1.p))
      = ((sphere.sphere cen (-radius) m).hit sqrt r t_min t_max rec).map
        (fun rec1 => (rec1.t, rec1.p)) := by
  have hdisc : (sphere.sphere cen (-radius) m).discriminant r
      = (sphere.sphere cen radius m).discriminant r := by
    simp only [sphere.discriminant, sphere.sphere, neg_mul_neg]
  have h1 : (sphere.sphere cen (-radius) m).root1 sqrt r
      = (sphere.sphere cen radius m).root1 sqrt r := by
    unfold sphere.root1; rw [hdisc]; rfl
  have h2 : (sphere.sphere cen (-radius) m).root2 sqrt r
      = (sphere.sphere cen radius m).root2 sqrt r := by
    unfold sphere.root2; rw [hdisc]; rfl
  rw [sphere_hit_eq, sphere_hit_eq, hdisc, h1, h2]
  split_ifs <;> simp

/-- C14 (amended). The code has no configuration check: the constructor of `sphere` accepts
every radius, also a radius `≤ 0`, and stores it unchanged, and `sphere::hit` intersects
the sphere built: whether it hits, and the `rec.t` and `rec.p` it reports, are those of the
sphere with the radius negated. -/
theorem sphere_radius_unchecked (cen : vec3 K) (radius : K) (m : M) (sqrt : K → K)
    (r : ray K) (t_min : K) (t_max : WithTop K) (rec : hit_record K M) :
    (sphere.sphere cen radius m).center = cen ∧
    (sphere.sphere cen radius m).radius = radius ∧
    (sphere.sphere cen radius m).mat_ptr = m ∧
    ((sphere.sphere cen radius m).hit sqrt r t_min t_max rec).map
        (fun rec1 => (rec1.t, rec1.p))
      = ((sphere.sphere cen (-radius) m).hit sqrt r t_min t_max rec).map
        (fun rec1 => (rec1.t, rec1.p)) :=
  ⟨rfl, rfl, rfl, sphere_hit_neg_radius cen radius m sqrt r t_min t_max rec⟩

end Constructor

section WitnessesConstructor

/-- C14, the claim as stated fails: the sphere with centre `(0,0,-1)` and radius `-0.5` is
built without any check, and `sphere::hit` intersects it with the ray from `(0,0,0)` with
direction `(0,0,-1)` on `[0.001, +∞)` at `t = 0.5`. -/
theorem sphere_radius_counterexample :
    (sphere.sphere (⟨0, 0, -1⟩ : vec3 ℝ) (-(1 / 2)) material_handle.material_center).radius
      ≤ 0 ∧
    ∃ rec1 : hit_record ℝ material_handle,
      (sphere.sphere (⟨0, 0, -1⟩ : vec3 ℝ) (-(1 / 2)) material_handle.material_center).hit
          Real.sqrt (axis_ray ℝ) (1 / 1000) ⊤
          (blank_record ℝ material_handle .material_ground) = some rec1 ∧
      rec1.t = 1 / 2 := by
  constructor
  · norm_num [sphere.sphere]
  · have hdisc : (sphere.sphere (⟨0, 0, -1⟩ : vec3 ℝ) (-(1 / 2))
        material_handle.material_center).discriminant (axis_ray ℝ) = (1 / 2) * (1 / 2) := by
      simp only [sphere.discriminant, sphere.sphere, axis_ray, vec3.dot,
        vec3.length_squared, ray.origin, ray.direction, vec3_sub_x, vec3_sub_y, vec3_sub_z]
      norm_num
    have hsq : Real.sqrt ((sphere.sphere (⟨0, 0, -1⟩ : vec3 ℝ) (-(1 / 2))
        material_handle.material_center).discriminant (axis_ray ℝ)) = 1 / 2 := by
      rw [hdisc]; exact real_sqrt_spec.sqrt_mul_self (by norm_num)
    have hroot : (sphere.sphere (⟨0, 0, -1⟩ : vec3 ℝ) (-(1 / 2))
        material_handle.material_center).root1 Real.sqrt (axis_ray ℝ) = 1 / 2 := by
      unfold sphere.root1
      rw [hsq]
      simp only [sphere.sphere, axis_ray, vec3.dot,
        vec3.length_squared, ray.origin, ray.direction, vec3_sub_x, vec3_sub_y, vec3_sub_z]
      norm_num
    refine ⟨(sphere.sphere (⟨0, 0, -1⟩ : vec3 ℝ) (-(1 / 2))
      material_handle.material_center).record (axis_ray ℝ)
      (blank_record ℝ material_handle .material_ground) (1 / 2), ?_, rfl⟩
    rw [sphere_hit_eq, hroot, hdisc]
    norm_num

end WitnessesConstructor

/-! ## Rays with a zero direction -/

section Degenerate
variable {σ K M : Type} [LinearOrderedField K]

/-- Where the direction and the radius are not zero, no division of `sphere::hit` has a
zero divisor, and the result is that of `hit`. -/
theorem hit_checked_eq (s : sphere K M) (sqrt : K → K) (r : ray K) (t_min : K)
    (t_max : WithTop K) (rec : hit_record K M) (hd : r.direction ≠ 0)
    (hr : s.radius ≠ 0) :
    s.hit_checked sqrt r t_min t_max rec = some (s.hit sqrt r t_min t_max rec) := by
  have ha : r.direction.length_squared ≠ 0 := ne_of_gt (length_squared_pos hd)
  unfold sphere.hit_checked sphere.hit
  simp only [checked_div, vec3.checked_div, ha, hr, if_false, Option.some_bind,
    ← sphere.discriminant.eq_1, ← sphere.root1.eq_1, ← sphere.root2.eq_1]
  by_cases h0 : s.discriminant r < 0
  · simp only [h0, if_true]
  · by_cases h1 : s.root1 sqrt r < t_min ∨ t_max < (s.root1 sqrt r : WithTop K)
    · by_cases h2 : s.root2 sqrt r < t_min ∨ t_max < (s.root2 sqrt r : WithTop K)
      · simp only [h0, h1, h2, if_true, if_false, Option.some_bind]
      · simp only [h0, h1, h2, if_true, if_false, Option.some_bind]
    · simp only [h0, h1, if_true, if_false, Option.some_bind]

theorem sqrt_zero_of_spec {sqrt : K → K} (hsqrt : SqrtSpec sqrt) : sqrt 0 = 0 := by
  have h := hsqrt.sqrt_mul_self (le_refl (0 : K))
  simpa using h

/-- C15 (amended). Degenerate rays are not guarded: for a ray whose direction has zero
length, `sphere::hit` finds `a = 0` and a discriminant `0`, which is not negative, so it
does not return early and divides by `a = 0`; and at a depth `≥ 1`, when the scene reports
no hit, the background branch of `ray_color` normalises the zero vector, dividing by its
length `0`. Neither result is a number of the model. -/
theorem degenerate_ray_unguarded (sqrt : K → K) (hsqrt : SqrtSpec sqrt) (s : sphere K M)
    (mats : materials σ K M) (world : hittable σ K M) (r : ray K) (t_min : K)
    (t_max : WithTop K) (rec : hit_record K M) (depth : Int) (st : σ)
    (hd : r.direction.length sqrt = 0) (hdepth : 1 ≤ depth)
    (hmiss : (world.hit r (1 / 1000) ⊤ rec st).1 = none) :
    r.direction.length_squared = 0 ∧
    s.discriminant r = 0 ∧
    s.hit_checked sqrt r t_min t_max rec = none ∧
    ray_color_checked sqrt mats rec world r depth st = none := by
  have ha : r.direction.length_squared = 0 := by
    have h := (hsqrt _ (length_squared_nonneg r.direction)).2
    unfold vec3.length at hd
    rw [hd, mul_zero] at h
    exact h.symm
  have hdir : r.direction = 0 := by
    by_contra hne
    exact absurd ha (ne_of_gt (length_squared_pos hne))
  have hdisc : s.discriminant r = 0 := by
    unfold sphere.discriminant
    rw [ha, hdir]
    simp [vec3.dot]
  refine ⟨ha, hdisc, ?_, ?_⟩
  · have hdisc1 := hdisc
    unfold sphere.discriminant at hdisc1
    unfold sphere.hit_checked
    simp only [hdisc1, lt_irrefl, if_false]
    simp only [ha, checked_div, if_true, Option.none_bind]
  · rw [ray_color_checked]
    have h : ¬ depth ≤ 0 := by omega
    simp only [h, dite_false]
    rcases hw : world.hit r (1 / 1000) ⊤ rec st with ⟨o, st1⟩
    rw [hw] at hmiss
    simp only at hmiss
    subst hmiss
    simp only [vec3.unit_vector_checked, vec3.checked_div, hd, if_true, Option.map_none']

/-- Whenever the evaluation of `ray_color` normalises no zero vector, the result is that of
`ray_color`. -/
theorem ray_color_checked_some (sqrt : K → K) (mats : materials σ K M)
    (rec : hit_record K M) (world : hittable σ K M) (r : ray K) (depth : Int) (st : σ)
    (res : vec3 K × σ) (h : ray_color_checked sqrt mats rec world r depth st = some res) :
    ray_color sqrt mats rec world r depth st = res := by
  generalize hn : depth.toNat = n
  induction n generalizing depth r st res with
  | zero =>
    have hd : depth ≤ 0 := by omega
    rw [ray_color_checked] at h
    rw [ray_color_nonpos _ _ _ _ _ _ _ hd]
    simpa [hd] using h
  | succ n ih =>
    have hd : 1 ≤ depth := by omega
    have hd0 : ¬ depth ≤ 0 := by omega
    rw [ray_color_checked] at h
    rw [ray_color_step _ _ _ _ _ _ _ hd]
    simp only [hd0, dite_false] at h
    rcases hw : world.hit r (1 / 1000) ⊤ rec st with ⟨o, st1⟩
    rw [hw] at h
    cases o with
    | none =>
      simp only [vec3.unit_vector_checked, vec3.checked_div] at h
      split_ifs at h
      · simp at h
      · simp only [Option.map_some', Option.some.injEq] at h
        rw [← h]; rfl
    | some rec1 =>
      simp only at h ⊢
      rcases hs : mats.scatter rec1.mat_ptr r rec1 st1 with ⟨o2, st2⟩
      rw [hs] at h
      cases o2 with
      | none => simpa using h
      | some pr =>
        obtain ⟨attenuation, scattered⟩ := pr
        simp only [Option.map_eq_some'] at h ⊢
        obtain ⟨res1, h1, h2⟩ := h
        rw [ih scattered (depth - 1) st2 res1 h1 (by omega), ← h2]

end Degenerate

section WitnessesDegenerate

theorem zero_ray_length : (zero_ray ℝ).direction.length Real.sqrt = 0 := by
  simp [vec3.length, vec3.length_squared, zero_ray, ray.direction]

/-- C15, the claim as stated fails: for the ray from `(0,0,0)` with direction `(0,0,0)`,
`sphere::hit` on the small sphere of `main` divides by `a = 0`, and `ray_color` at depth
`50` in a world without primitives divides the zero vector by its length `0`. -/
theorem degenerate_ray_counterexample :
    (zero_ray ℝ).direction.length Real.sqrt = 0 ∧
    (main.sphere_center ℝ).hit_checked Real.sqrt (zero_ray ℝ) (1 / 1000) ⊤
        (blank_record ℝ material_handle .material_ground) = none ∧
    ray_color_checked Real.sqrt (counting_materials ℝ Unit) (blank_record ℝ Unit ())
        (empty_world Nat ℝ Unit) (zero_ray ℝ) 50 0 = none := by
  refine ⟨zero_ray_length, ?_, ?_⟩
  · unfold sphere.hit_checked
    simp [checked_div, zero_ray, ray.direction, ray.origin, vec3.dot, vec3.length_squared]
  · rw [ray_color_checked]
    simp [empty_world, vec3.unit_vector_checked, vec3.checked_div, zero_ray_length]

/-- C15 (amended) at the zero ray. -/
theorem degenerate_ray_unguarded_witness :
    (zero_ray ℝ).direction.length_squared = 0 ∧
    (main.sphere_center ℝ).discriminant (zero_ray ℝ) = 0 ∧
    (main.sphere_center ℝ).hit_checked Real.sqrt (zero_ray ℝ) (1 / 1000) ⊤
        (blank_record ℝ material_handle .material_ground) = none ∧
    ray_color_checked Real.sqrt (counting_materials ℝ material_handle)
        (blank_record ℝ material_handle .material_ground)
        (empty_world Nat ℝ material_handle) (zero_ray ℝ) 50 0 = none :=
  degenerate_ray_unguarded Real.sqrt real_sqrt_spec (main.sphere_center ℝ)
    (counting_materials ℝ material_handle) (empty_world Nat ℝ material_handle) (zero_ray ℝ)
    (1 / 1000) ⊤ (blank_record ℝ material_handle .material_ground) 50 0 zero_ray_length
    (by decide) rfl

end WitnessesDegenerate

/-! ## Rays that start inside a sphere, and the length of the normal -/

section Surface
variable {K M : Type} [LinearOrderedField K]

/-- C18. For a sphere with non-zero radius, a ray with non-zero direction and every
interval: when `sphere::hit` returns true, the normal of the record has length one and
`|rec.p - center| = |radius|`. -/
theorem sphere_hit_unit_normal (s : sphere K M) (sqrt : K → K) (hsqrt : SqrtSpec sqrt)
    (r : ray K) (t_min : K) (t_max : WithTop K) (rec rec1 : hit_record K M)
    (hr : s.radius ≠ 0) (hd : r.direction ≠ 0)
    (hhit : s.hit sqrt r t_min t_max rec = some rec1) :
    rec1.normal.length sqrt = 1 ∧ (rec1.p - s.center).length sqrt = |s.radius| ∧
    rec1.normal.length_squared = 1 ∧
    (rec1.p - s.center).length_squared = s.radius * s.radius := by
  obtain ⟨hrec, hroot⟩ := sphere_hit_some s sqrt r t_min t_max rec rec1 hhit
  have hdisc : 0 ≤ s.discriminant r := by
    by_contra hneg
    rw [sphere_hit_eq, if_pos (not_le.mp hneg)] at hhit
    exact absurd hhit (by simp)
  generalize rec1.t = t0 at hrec hroot
  subst hrec
  have hon : ((s.record r rec t0).p - s.center).length_squared = s.radius * s.radius := by
    rw [record_p]
    exact (on_surface_iff s sqrt hsqrt r hd hdisc t0).mpr hroot
  have hneg : ∀ v : vec3 K, (-v).length_squared = v.length_squared := by
    intro v
    simp only [vec3.length_squared, vec3_neg_x, vec3_neg_y, vec3_neg_z]; ring
  have hdiv : ((r.at t0 - s.center) / s.radius).length_squared = 1 := by
    have : ((r.at t0 - s.center) / s.radius).length_squared
        = (r.at t0 - s.center).length_squared / (s.radius * s.radius) := by
      simp only [vec3.length_squared, vec3_div_x, vec3_div_y, vec3_div_z]
      field_simp
    rw [record_p] at hon
    rw [this, hon, div_self (mul_ne_zero hr hr)]
  have hn : (s.record r rec t0).normal.length_squared = 1 := by
    rw [record_normal]
    split_ifs
    · exact hdiv
    · rw [hneg]; exact hdiv
  refine ⟨?_, ?_, hn, hon⟩
  · unfold vec3.length
    rw [hn]
    simpa using hsqrt.sqrt_mul_self (zero_le_one : (0 : K) ≤ 1)
  · unfold vec3.length
    rw [hon, ← abs_mul_abs_self s.radius]
    exact hsqrt.sqrt_mul_self (abs_nonneg _)
end Surface

/-! ## Rescaling the direction of a ray -/

section Scale
variable {K M : Type} [LinearOrderedField K]

theorem scale_discriminant (s : sphere K M) (r : ray K) (k : K) :
    s.discriminant (r.scale k) = (k * k) * s.discriminant r := by
  simp only [sphere.discriminant, ray.scale, vec3.dot, vec3.length_squared, ray.origin,
    ray.direction, vec3_sub_x, vec3_sub_y, vec3_sub_z, vec3_smul_x, vec3_smul_y, vec3_smul_z]
  ring

theorem scale_sqrt_discriminant (s : sphere K M) (sqrt : K → K) (hsqrt : SqrtSpec sqrt)
    (r : ray K) (k : K) (hk : 0 < k) (hdisc : 0 ≤ s.discriminant r) :
    sqrt (s.discriminant (r.scale k)) = k * sqrt (s.discriminant r) := by
  obtain ⟨h0, h2⟩ := hsqrt _ hdisc
  have : s.discriminant (r.scale k)
      = (k * sqrt (s.discriminant r)) * (k * sqrt (s.discriminant r)) := by
    rw [scale_discriminant]
    nth_rewrite 1 [← h2]
    ring
  rw [this]
  exact hsqrt.sqrt_mul_self (mul_nonneg (le_of_lt hk) h0)

theorem scale_roots (s : sphere K M) (sqrt : K → K) (hsqrt : SqrtSpec sqrt)
    (r : ray K) (k : K) (hk : 0 < k) (hd : r.direction ≠ 0)
    (hdisc : 0 ≤ s.discriminant r) :
    s.root1 sqrt (r.scale k) = s.root1 sqrt r / k ∧
    s.root2 sqrt (r.scale k) = s.root2 sqrt r / k := by
  have ha : r.direction.length_squared ≠ 0 := ne_of_gt (length_squared_pos hd)
  have hk0 : k ≠ 0 := ne_of_gt hk
  have hb : vec3.dot ((r.scale k).origin - s.center) (r.scale k).direction
      = k * vec3.dot (r.origin - s.center) r.direction := by
    simp only [ray.scale, vec3.dot, ray.origin, ray.direction, vec3_sub_x, vec3_sub_y,
      vec3_sub_z, vec3_smul_x, vec3_smul_y, vec3_smul_z]
    ring
  have hlen : (r.scale k).direction.length_squared = (k * k) * r.direction.length_squared := by
    simp only [ray.scale, vec3.length_squared, ray.direction, vec3_smul_x, vec3_smul_y,
      vec3_smul_z]
    ring
  unfold sphere.root1 sphere.root2
  rw [scale_sqrt_discriminant s sqrt hsqrt r k hk hdisc, hb, hlen]
  constructor <;> field_simp <;> ring

theorem scale_at (r : ray K) (k : K) (hk : k ≠ 0) (t : K) :
    (r.scale k).at (t / k) = r.at t := by
  apply vec3_ext <;>
    simp only [ray.scale, ray.at, vec3_add_x, vec3_add_y, vec3_add_z, vec3_smul_x,
      vec3_smul_y, vec3_smul_z] <;> field_simp <;> ring

theorem scale_dot_neg (r : ray K) (k : K) (hk : 0 < k) (n : vec3 K) :
    vec3.dot (r.scale k).direction n < 0 ↔ vec3.dot r.direction n < 0 := by
  have : vec3.dot (r.scale k).direction n = k * vec3.dot r.direction n := by
    simp only [ray.scale, vec3.dot, ray.direction, vec3_smul_x, vec3_smul_y, vec3_smul_z]
    ring
  rw [this]
  constructor
  · intro h
    by_contra hn
    exact absurd h (not_lt.mpr (mul_nonneg (le_of_lt hk) (not_lt.mp hn)))
  · intro h
    exact mul_neg_of_pos_of_neg hk h

theorem scale_record (s : sphere K M) (r : ray K) (k : K) (hk : 0 < k)
    (rec : hit_record K M) (t : K) :
    s.record (r.scale k) rec (t / k) = { s.record r rec t with t := t / k } := by
  have hat := scale_at r k (ne_of_gt hk) t
  have hdec : decide (vec3.dot (r.scale k).direction ((r.at t - s.center) / s.radius) < 0)
      = decide (vec3.dot r.direction ((r.at t - s.center) / s.radius) < 0) := by
    rw [decide_eq_decide]; exact scale_dot_neg r k hk _
  apply hit_record_ext
  · rw [record_p, hat]; rfl
  · rw [record_normal, hat, hdec]; rfl
  · rfl
  · rfl
  · rw [record_front_face, hat, hdec]; rfl

theorem scale_in_range (k : K) (hk : 0 < k) (t t_min : K) (t_max : WithTop K) :
    (t_min / k ≤ t / k ∧ ((t / k : K) : WithTop K) ≤ t_max.map (fun x => x / k))
      ↔ (t_min ≤ t ∧ (t : WithTop K) ≤ t_max) := by
  have h1 : t_min / k ≤ t / k ↔ t_min ≤ t := div_le_div_iff_of_pos_right hk
  rw [h1]
  cases t_max using WithTop.recTopCoe with
  | top => simp
  | coe x =>
    simp only [WithTop.map_coe, WithTop.coe_le_coe]
    rw [div_le_div_iff_of_pos_right hk]

end Scale

/-! ## The energy bound of `ray_color` -/

section Energy
variable {σ K M : Type} [LinearOrderedField K]

/-- The background colour of a ray with non-zero direction has its components in
`[0.5, 1]`. -/
theorem background_within (sqrt : K → K) (hsqrt : SqrtSpec sqrt) (v : vec3 K) (hv : v ≠ 0) :
    vec3.within (1 / 2) 1
      ((1 - 1 / 2 * ((vec3.unit_vector sqrt v).y + 1)) • (⟨1, 1, 1⟩ : vec3 K)
        + (1 / 2 * ((vec3.unit_vector sqrt v).y + 1)) • (⟨1 / 2, 7 / 10, 1⟩ : vec3 K)) := by
  have h1 := unit_vector_length_squared sqrt hsqrt v hv
  unfold vec3.length_squared at h1
  set u := vec3.unit_vector sqrt v
  have hx := mul_self_nonneg u.x
  have hz := mul_self_nonneg u.z
  have hy2 : u.y * u.y ≤ 1 := by linarith
  have hylo : -1 ≤ u.y := by nlinarith
  have hyhi : u.y ≤ 1 := by nlinarith
  simp only [vec3.within, vec3_add_x, vec3_add_y, vec3_add_z, vec3_smul_x, vec3_smul_y,
    vec3_smul_z]
  refine ⟨⟨?_, ?_⟩, ⟨?_, ?_⟩, ⟨?_, ?_⟩⟩ <;> linarith

theorem within_half_one {v : vec3 K} (h : vec3.within (1 / 2) 1 v) : vec3.within 0 1 v := by
  obtain ⟨⟨a, b⟩, ⟨c, d⟩, ⟨e, f⟩⟩ := h
  have : (0 : K) ≤ 1 / 2 := by norm_num
  exact ⟨⟨le_trans this a, b⟩, ⟨le_trans this c, d⟩, ⟨le_trans this e, f⟩⟩

theorem within_mul {u v : vec3 K} (hu : vec3.within 0 1 u) (hv : vec3.within 0 1 v) :
    vec3.within 0 1 (u * v) := by
  obtain ⟨⟨a, b⟩, ⟨c, d⟩, ⟨e, f⟩⟩ := hu
  obtain ⟨⟨a1, b1⟩, ⟨c1, d1⟩, ⟨e1, f1⟩⟩ := hv
  simp only [vec3.within, vec3_mul_x, vec3_mul_y, vec3_mul_z]
  exact ⟨⟨mul_nonneg a a1, mul_le_one₀ b a1 b1⟩, ⟨mul_nonneg c c1, mul_le_one₀ d c1 d1⟩,
    ⟨mul_nonneg e e1, mul_le_one₀ f e1 f1⟩⟩

theorem black_within : vec3.within 0 1 (⟨0, 0, 0⟩ : vec3 K) := by
  simp [vec3.within]

/-- C19. Energy bound: if every attenuation that `scatter` returns for a ray with non-zero
direction has its components in `[0, 1]` and the scattered ray has a non-zero direction,
then for every scene, ray with non-zero direction and depth each component of the result
of `ray_color` lies in `[0, 1]`; the background branch yields components in `[0.5, 1]`. -/
theorem ray_color_energy_bound (sqrt : K → K) (hsqrt : SqrtSpec sqrt)
    (mats : materials σ K M) (rec : hit_record K M) (world : hittable σ K M)
    (hmats : ∀ (m : M) (r : ray K) (rec1 : hit_record K M) (st : σ) (attenuation : vec3 K)
      (scattered : ray K) (st2 : σ), r.direction ≠ 0 →
      mats.scatter m r rec1 st = (some (attenuation, scattered), st2) →
      vec3.within 0 1 attenuation ∧ scattered.direction ≠ 0)
    (r : ray K) (hd : r.direction ≠ 0) (depth : Int) (st : σ) :
    vec3.within 0 1 (ray_color sqrt mats rec world r depth st).1 ∧
    (1 ≤ depth → (world.hit r (1 / 1000) ⊤ rec st).1 = none →
      vec3.within (1 / 2) 1 (ray_color sqrt mats rec world r depth st).1) := by
  constructor
  · generalize hn : depth.toNat = n
    induction n generalizing depth r st with
    | zero =>
      rw [ray_color_nonpos _ _ _ _ _ _ _ (by omega)]
      exact black_within
    | succ n ih =>
      rw [ray_color_step _ _ _ _ _ _ _ (by omega)]
      rcases hw : world.hit r (1 / 1000) ⊤ rec st with ⟨o, st1⟩
      cases o with
      | none => exact within_half_one (background_within sqrt hsqrt _ hd)
      | some rec1 =>
        simp only
        rcases hs : mats.scatter rec1.mat_ptr r rec1 st1 with ⟨o2, st2⟩
        cases o2 with
        | none => exact black_within
        | some pr =>
          obtain ⟨attenuation, scattered⟩ := pr
          obtain ⟨hatt, hsc⟩ := hmats _ _ _ _ _ _ _ hd hs
          exact within_mul hatt (ih scattered hsc (depth - 1) st2 (by omega))
  · intro hdepth hmiss
    rw [ray_color_step _ _ _ _ _ _ _ hdepth]
    rcases hw : world.hit r (1 / 1000) ⊤ rec st with ⟨o, st1⟩
    rw [hw] at hmiss
    simp only at hmiss
    subst hmiss
    exact background_within sqrt hsqrt _ hd
end Energy

section WitnessesSurface

theorem inside_ray_direction_ne_zero : (inside_ray ℝ).direction ≠ 0 := by
  intro h
  have hz := congrArg vec3.z h
  simp [inside_ray, ray.direction] at hz

/-- From its centre the small sphere of `main` is hit at the larger root `t = 0.5`. -/
theorem inside_ray_hit :
    (main.sphere_center ℝ).hit Real.sqrt (inside_ray ℝ) (1 / 1000) ⊤
        (blank_record ℝ material_handle .material_ground)
      = some ((main.sphere_center ℝ).record (inside_ray ℝ)
          (blank_record ℝ material_handle .material_ground) (1 / 2)) := by
  have hdisc : (main.sphere_center ℝ).discriminant (inside_ray ℝ) = (1 / 2) * (1 / 2) := by
    simp only [sphere.discriminant, main.sphere_center, inside_ray, vec3.dot,
      vec3.length_squared, ray.origin, ray.direction, vec3_sub_x, vec3_sub_y, vec3_sub_z]
    norm_num
  have hsq : Real.sqrt ((main.sphere_center ℝ).discriminant (inside_ray ℝ)) = 1 / 2 := by
    rw [hdisc]; exact real_sqrt_spec.sqrt_mul_self (by norm_num)
  have h1 : (main.sphere_center ℝ).root1 Real.sqrt (inside_ray ℝ) = -(1 / 2) := by
    unfold sphere.root1
    rw [hsq]
    simp only [main.sphere_center, inside_ray, vec3.dot,
      vec3.length_squared, ray.origin, ray.direction, vec3_sub_x, vec3_sub_y, vec3_sub_z]
    norm_num
  have h2 : (main.sphere_center ℝ).root2 Real.sqrt (inside_ray ℝ) = 1 / 2 := by
    unfold sphere.root2
    rw [hsq]
    simp only [main.sphere_center, inside_ray, vec3.dot,
      vec3.length_squared, ray.origin, ray.direction, vec3_sub_x, vec3_sub_y, vec3_sub_z]
    norm_num
  rw [sphere_hit_eq, h1, h2, hdisc]
  norm_num

/-- C18 at the small sphere of `main` and the ray from its centre. -/
theorem sphere_hit_unit_normal_witness :
    ((main.sphere_center ℝ).record (inside_ray ℝ)
        (blank_record ℝ material_handle .material_ground) (1 / 2)).normal.length Real.sqrt
      = 1 :=
  (sphere_hit_unit_normal (main.sphere_center ℝ) Real.sqrt real_sqrt_spec (inside_ray ℝ)
    (1 / 1000) ⊤ (blank_record ℝ material_handle .material_ground) _
    (by norm_num [main.sphere_center]) inside_ray_direction_ne_zero inside_ray_hit).1

/-- C19 at depth `50` with a world that always reports a hit and materials that always
scatter the incoming ray with attenuation `(1,1,1)`. -/
theorem ray_color_energy_bound_witness :
    vec3.within 0 1 (ray_color Real.sqrt (counting_materials ℝ Unit)
      (blank_record ℝ Unit ()) (counting_world ℝ Unit) (axis_ray ℝ) 50 0).1 :=
  (ray_color_energy_bound Real.sqrt real_sqrt_spec (counting_materials ℝ Unit)
    (blank_record ℝ Unit ()) (counting_world ℝ Unit)
    (by
      intro m r rec1 st attenuation scattered st2 hr h
      simp only [counting_materials, Prod.mk.injEq, Option.some.injEq] at h
      obtain ⟨⟨h1, h2⟩, -⟩ := h
      subst h1 h2
      exact ⟨by norm_num [vec3.within], hr⟩)
    (axis_ray ℝ) (axis_ray_direction_ne_zero ℝ) 50 0).1

end WitnessesSurface

/-! ## `hit_record::set_face_normal` -/

section FaceNormal

variable {K M : Type} [LinearOrderedField K]

end FaceNormal

section WitnessesFaceNormal

end WitnessesFaceNormal

section WitnessesOrientation

end WitnessesOrientation

end Raytracer
